import Mathlib

/-!
# port_scan: address / port range parsing, task dispatch, probes and progress

A shallow embedding of `service/port_scanner.go` and `app.go`.

Go `string` values are modelled by `String` (valid UTF-8 text), Go `int` by `Int`
(64-bit platform; the counts of addresses, ports and results stay in range, each counted
element being held in memory), `uint32` by `Nat` reduced modulo `2 ^ 32`, the `int64`
product of the timeout by `Int` reduced into the range of `int64`, `float64` by the
rationals rounded as IEEE 754 binary64 does, with the infinities and NaN, and `error`
results by `Except String _` carrying the text of `err.Error()`.

Standard-library functions the program calls (`strings.Split`, `strings.TrimSpace`,
`strings.Contains`, `strings.Join`, `strconv.Atoi`, `net.ParseIP`, `net.IP.To4`,
`net.IPv4`, `net.IP.String`) are modelled after their documented behaviour in the
namespaces `strings`, `strconv` and `net`.
-/

set_option autoImplicit false

deriving instance DecidableEq for Except

/-! ## Standard library: `unicode`, `strings`, `strconv` -/

namespace unicode

/-- The predicate `unicode.IsSpace`: the Unicode White_Space property. -/
def IsSpace (c : Char) : Bool :=
  let n := c.toNat
  (0x09 ≤ n && n ≤ 0x0d) || n == 0x20 || n == 0x85 || n == 0xa0 || n == 0x1680 ||
  (0x2000 ≤ n && n ≤ 0x200a) || n == 0x2028 || n == 0x2029 || n == 0x202f ||
  n == 0x205f || n == 0x3000

end unicode

namespace strings

/-- Splitting of a character list at every occurrence of the separator `sep`;
`n` occurrences give `n + 1` pieces. -/
def splitChars (sep : Char) : List Char → List (List Char)
  | [] => [[]]
  | c :: cs =>
    if c = sep then [] :: splitChars sep cs
    else
      match splitChars sep cs with
      | [] => [[c]]
      | p :: ps => (c :: p) :: ps

/-- The call `strings.Split(s, sep)` for a one-character separator. -/
def Split (s : String) (sep : Char) : List String :=
  (splitChars sep s.data).map String.mk

/-- The call `strings.Contains(s, sep)` for a one-character substring. -/
def Contains (s : String) (sep : Char) : Bool :=
  s.data.contains sep

/-- The call `strings.TrimSpace(s)`: leading and trailing white space removed. -/
def TrimSpace (s : String) : String :=
  String.mk ((((s.data.dropWhile unicode.IsSpace).reverse).dropWhile unicode.IsSpace).reverse)

/-- The call `strings.Join(elems, sep)`. -/
def Join (elems : List String) (sep : String) : String :=
  sep.intercalate elems

end strings

namespace strconv

/-- Value of a run of ASCII decimal digits, `none` when a character is not a digit. -/
def digitsVal : List Char → Nat → Option Nat
  | [], acc => some acc
  | c :: cs, acc =>
    if 48 ≤ c.toNat ∧ c.toNat ≤ 57 then digitsVal cs (acc * 10 + (c.toNat - 48)) else none

/-- The call `strconv.Atoi(s)` on a 64-bit platform: an optional sign, then one or more
decimal digits, the value within the range of `int`; `none` stands for a non-nil error. -/
def Atoi (s : String) : Option Int :=
  match s.data with
  | [] => none
  | c :: cs =>
    let neg : Bool := c = '-'
    let ds : List Char := if c = '-' ∨ c = '+' then cs else c :: cs
    match ds with
    | [] => none
    | d :: ds1 =>
      match digitsVal (d :: ds1) 0 with
      | none => none
      | some n =>
        if neg then (if n ≤ 2 ^ 63 then some (-(n : Int)) else none)
        else (if n < 2 ^ 63 then some (n : Int) else none)

end strconv

/-! ## `service/port_scanner.go`: port range parsing -/

/-- The loop `for i := start; i <= end; i++ { ports = append(ports, i) }` of
`ParsePortRange`, run for at most `fuel` iterations. -/
def portLoop : Nat → Int → Int → List Int → List Int
  | 0, _, _, ports => ports
  | fuel + 1, i, stop, ports =>
    if i ≤ stop then portLoop fuel (i + 1) stop (ports ++ [i]) else ports

/-- The body of `ParsePortRange`, iterated over the comma tokens with the slice `ports`
built so far. The range loop is entered only when `1 ≤ start ≤ end ≤ 65535`, so the
65536 iterations allowed to it are never used up. -/
def ParsePortRange.loop : List String → List Int → Except String (List Int)
  | [], ports => .ok ports
  | p0 :: rest, ports =>
    let p := strings.TrimSpace p0
    if p = "" then ParsePortRange.loop rest ports
    else if strings.Contains p '-' then
      match strings.Split p '-' with
      | [part0, part1] =>
        match strconv.Atoi (strings.TrimSpace part0) with
        | none => .error "无效的起始端口"
        | some start =>
          match strconv.Atoi (strings.TrimSpace part1) with
          | none => .error "无效的结束端口"
          | some stop =>
            if start > stop ∨ start < 1 ∨ stop > 65535 then .error "端口范围无效"
            else ParsePortRange.loop rest (portLoop 65536 start stop ports)
      | _ => .error "端口范围格式错误"
    else
      match strconv.Atoi p with
      | none => .error "无效的端口号"
      | some port =>
        if port < 1 ∨ port > 65535 then .error "端口号超出范围"
        else ParsePortRange.loop rest (ports ++ [port])

/-- The function `ParsePortRange(portRange)`. -/
def ParsePortRange (portRange : String) : Except String (List Int) :=
  ParsePortRange.loop (strings.Split portRange ',') []

/-! ## Standard library: `net` -/

namespace net

/-- The type `net.IP`: a byte slice (every element below 256), of length 4 or 16 for an
address, `none` of `Option IP` standing for the nil slice. -/
abbrev IP := List Nat

/-- The twelve leading bytes of an IPv4 address stored in 16-byte form. -/
def v4InV6 : List Nat := [0, 0, 0, 0, 0, 0, 0, 0, 0, 0, 0xff, 0xff]

/-- The call `net.IPv4(a, b, c, d)`: the 16-byte form of the IPv4 address. -/
def IPv4 (a b c d : Nat) : IP := v4InV6 ++ [a, b, c, d]

/-- The method `ip.To4()`. -/
def To4 (ip : IP) : Option IP :=
  if ip.length = 4 then some ip
  else if ip.length = 16 ∧ ip.take 12 = v4InV6 then some (ip.drop 12)
  else none

/-- The method `ip.String()` on an address that has an IPv4 form: dotted decimal. The text
forms of the other values are not modelled: this program calls `String` only on results of
`net.IPv4` (see `uint32ToIP`). -/
def IPString (ip : IP) : String :=
  match To4 ip with
  | some [a, b, c, d] =>
    Nat.repr a ++ "." ++ Nat.repr b ++ "." ++ Nat.repr c ++ "." ++ Nat.repr d
  | _ => ""

/-- The scan of `parseIPv4` over the characters left: `afterDot` holds at the first
character and right after a dot, `val` and `digLen` describe the field being read and
`fields` holds the fields completed. -/
def parseIPv4.loop : List Char → Bool → Nat → Nat → List Nat → Option IP
  | [], _, val, _, fields =>
    match fields with
    | [a, b, c] => some (IPv4 a b c val)
    | _ => none
  | ch :: rest, afterDot, val, digLen, fields =>
    if 48 ≤ ch.toNat ∧ ch.toNat ≤ 57 then
      if digLen = 1 ∧ val = 0 then none
      else if val * 10 + (ch.toNat - 48) > 255 then none
      else parseIPv4.loop rest false (val * 10 + (ch.toNat - 48)) (digLen + 1) fields
    else if ch = '.' then
      if afterDot ∨ rest = [] then none
      else if fields.length = 3 then none
      else parseIPv4.loop rest true 0 0 (fields ++ [val])
    else none

/-- The IPv4 branch of `net.ParseIP`: four decimal fields separated by dots, each with a
value of at most 255 and without a leading zero. -/
def parseIPv4 (s : String) : Option IP :=
  parseIPv4.loop s.data true 0 0 []

/-- The dispatch of `net.ParseIP` on the first of the characters `.`, `:` and `%`. -/
def ParseIP.dispatch (parseIPv6 : String → Option IP) (s : String) : List Char → Option IP
  | [] => none
  | ch :: rest =>
    if ch = '.' then parseIPv4 s
    else if ch = ':' then parseIPv6 s
    else if ch = '%' then none
    else ParseIP.dispatch parseIPv6 s rest

/-- The call `net.ParseIP(s)`; the parser of the IPv6 text forms is a parameter. -/
def ParseIP (parseIPv6 : String → Option IP) (s : String) : Option IP :=
  ParseIP.dispatch parseIPv6 s s.data

end net

/-! ## The environment of the program -/

namespace nmap

/-- A port record of a host in the report of a run: `p.ID` and `p.State.State`. -/
structure Port where
  ID : Nat
  State : String
deriving DecidableEq, Repr

/-- A host in the report of a run, with its port records `host.Ports`. -/
structure Host where
  Ports : List Port
deriving DecidableEq, Repr

/-- What the nmap library returns for one target: the error of `nmap.NewScanner`, and of
`scanner.Run()` the error, the warnings (`none` for a nil pointer) and `run.Hosts`. -/
structure Outcome where
  newScannerErr : Option String
  runErr : Option String
  warnings : Option (List String)
  hosts : List Host
deriving DecidableEq, Repr

end nmap

/-- Everything the program reads from outside: the IPv6 branch of `net.ParseIP`,
`runtime.GOOS`, `os.Geteuid()`, the outcome of nmap for a target, port and host timeout,
whether `net.DialTimeout` connects to a target and port within a timeout, and the largest
`threads` for which `make(chan ..., threads)` returns and the workers can be started: the
runtime panics with `makechan: size out of range` when the buffer of 24-byte elements
exceeds `maxAlloc - hchanSize`, that is above 11728124029606 on 64-bit Linux, and the
process stops earlier where memory is shorter. -/
structure Externals where
  parseIPv6 : String → Option net.IP
  GOOS : String
  euid : Int
  nmapRun : String → Int → Int → nmap.Outcome
  dialOk : String → Int → Int → Bool
  maxPoolSize : Nat

/-- A call the program makes to the outside during a probe. -/
inductive Effect where
  | nmapNewScanner (ip : String) (port : Int)
  | nmapRun (ip : String) (port : Int)
  | dial (ip : String) (port : Int)
deriving DecidableEq, Repr

/-! ## `service/port_scanner.go`: address range parsing -/

/-- The function `ipToUint32(ip)`. -/
def ipToUint32 (ip : net.IP) : Nat :=
  match net.To4 ip with
  | some [a, b, c, d] => ((a <<< 24) ||| (b <<< 16) ||| (c <<< 8) ||| d) % 2 ^ 32
  | _ => 0

/-- The function `uint32ToIP(n)`. -/
def uint32ToIP (n : Nat) : net.IP :=
  net.IPv4 ((n >>> 24) % 256) ((n >>> 16) % 256) ((n >>> 8) % 256) (n % 256)

/-- The loop `for i := start; i <= end; i++ { ips = append(ips, uint32ToIP(i).String()) }`
of `ParseIPRange`, the counter `i` a `uint32`; `none` when the loop has not ended after
`fuel` iterations. -/
def ipLoop : Nat → Nat → Nat → List String → Option (List String)
  | 0, _, _, _ => none
  | fuel + 1, i, stop, ips =>
    if i ≤ stop then ipLoop fuel ((i + 1) % 2 ^ 32) stop (ips ++ [net.IPString (uint32ToIP i)])
    else some ips

/-- The function `ParseIPRange(ipRange)`; `none` when its loop has not ended after `fuel`
iterations. -/
def ParseIPRange (w : Externals) (fuel : Nat) (ipRange : String) :
    Option (Except String (List String)) :=
  if !strings.Contains ipRange '-' then some (.ok [ipRange])
  else
    match strings.Split ipRange '-' with
    | [part0, part1] =>
      match net.ParseIP w.parseIPv6 (strings.TrimSpace part0),
            net.ParseIP w.parseIPv6 (strings.TrimSpace part1) with
      | some startIP, some endIP =>
        if ipToUint32 endIP < ipToUint32 startIP then some (.error "IP范围无效")
        else (ipLoop fuel (ipToUint32 startIP) (ipToUint32 endIP) []).map .ok
      | _, _ => some (.error "无效的IP地址")
    | _ => some (.error "IP范围格式错误")

/-! ## `service/port_scanner.go`: the probes -/

/-- The struct `ScanResult`. -/
structure ScanResult where
  IP : String
  Port : Int
  State : String
deriving DecidableEq, Repr

/-- The method `checkPermissions`: `none` for a nil error. -/
def checkPermissions (w : Externals) : Option String :=
  if w.GOOS ≠ "windows" then
    if w.euid ≠ 0 then some "需要 root 权限才能进行 SYN 扫描，请使用 sudo 运行程序"
    else none
  else none

/-- The method `CheckPermission`. -/
def CheckPermission (w : Externals) : Option String :=
  checkPermissions w

/-- The inner loop `for _, p := range host.Ports` of `ScanPort`: the state of the first
record whose `ID` is `port`. -/
def ScanPort.findInPorts (port : Int) : List nmap.Port → Option String
  | [] => none
  | p :: ps => if (p.ID : Int) = port then some p.State else ScanPort.findInPorts port ps

/-- The outer loop `for _, host := range run.Hosts` of `ScanPort`. -/
def ScanPort.findInHosts (port : Int) : List nmap.Host → Option String
  | [] => none
  | host :: hosts =>
    match ScanPort.findInPorts port host.Ports with
    | some st => some st
    | none => ScanPort.findInHosts port hosts

/-- The method `ScanPort(ip, port)` of a scanner with the given `timeout`: its result and
the calls it makes to nmap. -/
def ScanPort (w : Externals) (timeout : Int) (ip : String) (port : Int) :
    ScanResult × List Effect :=
  let out := w.nmapRun ip port timeout
  match out.newScannerErr with
  | some err => (⟨ip, port, err⟩, [.nmapNewScanner ip port])
  | none =>
    let effects := [Effect.nmapNewScanner ip port, Effect.nmapRun ip port]
    match out.runErr with
    | some err => (⟨ip, port, err⟩, effects)
    | none =>
      match out.warnings with
      | some (wn :: wns) => (⟨ip, port, strings.Join (wn :: wns) "; "⟩, effects)
      | _ =>
        if out.hosts.length = 0 then (⟨ip, port, "closed"⟩, effects)
        else
          match ScanPort.findInHosts port out.hosts with
          | some st => (⟨ip, port, st⟩, effects)
          | none => (⟨ip, port, "closed"⟩, effects)

/-- The method `ScanPortTCP(ip, port)` of a scanner with the given `timeout`: its result
and the call it makes to `net.DialTimeout`. -/
def ScanPortTCP (w : Externals) (timeout : Int) (ip : String) (port : Int) :
    ScanResult × List Effect :=
  if w.dialOk ip port timeout then (⟨ip, port, "open"⟩, [.dial ip port])
  else (⟨ip, port, "closed"⟩, [.dial ip port])

/-- An environment for examples: no IPv6 parser, an unprivileged Linux process, nmap
reporting nothing, no port accepting a connection, and the channel limit of 64-bit
Linux. -/
def Externals.example : Externals :=
  ⟨fun _ => none, "linux", 1000, fun _ _ _ => ⟨none, none, none, []⟩, fun _ _ _ => false,
    11728124029606⟩

/-! ## `service/port_scanner.go`: `ScanPorts` -/

/-- The element type of `taskChan`. -/
structure ScanTask where
  ip : String
  port : Int
deriving DecidableEq, Repr

/-- The loop `for _, ipRange := range ipRanges` of `ScanPorts` with the slice `allIPs`
built so far: the error case carries the one result sent before returning; `none` when a
call of `ParseIPRange` has not ended within `fuel`. -/
def ScanPorts.parseIPs (w : Externals) (fuel : Nat) :
    List String → List String → Option (Except ScanResult (List String))
  | [], allIPs => some (.ok allIPs)
  | ipRange :: rest, allIPs =>
    match ParseIPRange w fuel (strings.TrimSpace ipRange) with
    | none => none
    | some (.error err) => some (.error ⟨ipRange, 0, err⟩)
    | some (.ok ips) => ScanPorts.parseIPs w fuel rest (allIPs ++ ips)

/-- How the sequential first part of `ScanPorts` ends. -/
inductive ScanPorts.Start where
  /-- A specification did not parse: the result is sent and the function returns. -/
  | failed (r : ScanResult)
  /-- The call `make(chan ..., threads)` panics, for a negative size or one out of
  range, or the pool cannot be set up: no worker and no dispatcher is started. -/
  | panicked
  /-- Workers and dispatcher are started on these addresses and ports. -/
  | pool (allIPs : List String) (portList : List Int)
deriving DecidableEq, Repr

/-- The sequential first part of `ScanPorts`, lines 323 to 345. -/
def ScanPorts.start (w : Externals) (fuel : Nat) (ips ports : String) (threads : Int) :
    Option ScanPorts.Start :=
  match ScanPorts.parseIPs w fuel (strings.Split ips ',') [] with
  | none => none
  | some (.error r) => some (.failed r)
  | some (.ok allIPs) =>
    match ParsePortRange ports with
    | .error err => some (.failed ⟨"", 0, err⟩)
    | .ok portList =>
      if threads < 0 ∨ threads > w.maxPoolSize then some .panicked
      else some (.pool allIPs portList)

/-- The inner loop `for _, port := range portList` of the dispatcher goroutine, with the
tasks pushed so far. `done k` tells whether the select reached after `k` pushes takes the
branch `<-s.ctx.Done()`; the flag returned is true when the goroutine returned there. -/
def dispatch.ports (done : Nat → Bool) (ip : String) : List Int → List ScanTask → List ScanTask × Bool
  | [], pushed => (pushed, false)
  | port :: rest, pushed =>
    if done pushed.length then (pushed, true)
    else dispatch.ports done ip rest (pushed ++ [⟨ip, port⟩])

/-- The outer loop `for _, ip := range allIPs` of the dispatcher goroutine. -/
def dispatch.ips (done : Nat → Bool) (portList : List Int) :
    List String → List ScanTask → List ScanTask × Bool
  | [], pushed => (pushed, false)
  | ip :: rest, pushed =>
    match dispatch.ports done ip portList pushed with
    | (pushed1, true) => (pushed1, true)
    | (pushed1, false) => dispatch.ips done portList rest pushed1

/-- The dispatcher goroutine: the sequence of tasks it pushes to `taskChan`. -/
def dispatch (done : Nat → Bool) (allIPs : List String) (portList : List Int) : List ScanTask :=
  (dispatch.ips done portList allIPs []).1

/-- The parameters of one call of `ScanPorts`. -/
structure Scan where
  w : Externals
  useSYN : Bool
  threads : Nat
  timeoutMs : Int

/-- The value of an `int64` computation whose exact result is `x`: reduced modulo `2 ^ 64`
into the range from `-2 ^ 63` to `2 ^ 63 - 1`. -/
def int64 (x : Int) : Int :=
  (x + 2 ^ 63) % 2 ^ 64 - 2 ^ 63

/-- The field `s.timeout = time.Duration(timeoutMs) * time.Millisecond` of line 321, in
nanoseconds; the product wraps around in `int64`. -/
def Scan.timeout (c : Scan) : Int :=
  int64 (c.timeoutMs * 1000000)

/-- The probe a worker runs on a task: `ScanPort` or `ScanPortTCP`, with the timeout
`s.timeout`. -/
def Scan.probe (c : Scan) (t : ScanTask) : ScanResult × List Effect :=
  if c.useSYN then ScanPort c.w c.timeout t.ip t.port
  else ScanPortTCP c.w c.timeout t.ip t.port

/-- Where a worker goroutine stands. -/
inductive Worker where
  /-- Waiting in `for task := range taskChan`. -/
  | idle
  /-- The probe has returned `r`; waiting in the select that sends it on `resultChan`. -/
  | sending (r : ScanResult)
  /-- Returned, `wg.Done()` has run. -/
  | exited
deriving DecidableEq, Repr

/-- Where the goroutine that called `ScanPorts` stands. -/
inductive MainPC where
  /-- About to send the result of a parse error. -/
  | sendError (r : ScanResult)
  /-- In `wg.Wait()`. -/
  | waiting
  /-- Returned: `s.cancel()` and `close(resultChan)` have run. -/
  | returned
deriving DecidableEq, Repr

/-- The state of a call of `ScanPorts` whose caller never cancels `ctx` and receives every
result offered on `resultChan`. -/
structure Pool where
  main : MainPC
  /-- The tasks the dispatcher has still to push, in order. -/
  todo : List ScanTask
  /-- The dispatcher has returned and `close(taskChan)` has run. -/
  taskChanClosed : Bool
  /-- The buffer of `taskChan`, of capacity `threads`. -/
  taskChan : List ScanTask
  workers : List Worker
  /-- The context `s.ctx` is cancelled. -/
  ctxDone : Bool
  /-- The tasks pushed to `taskChan` so far, in order. -/
  pushed : List ScanTask
  /-- The calls made to the outside by the probes so far. -/
  effects : List Effect
  /-- The results received from `resultChan` so far, in order. -/
  stream : List ScanResult
  resultChanClosed : Bool
deriving DecidableEq, Repr

/-- The state in which the concurrent part of `ScanPorts` begins. The dispatcher is given
the tasks of its two loops in order; no task channel, worker or dispatcher exists when a
specification did not parse. -/
def ScanPorts.init (c : Scan) : ScanPorts.Start → Option Pool
  | .failed r => some ⟨.sendError r, [], true, [], [], false, [], [], [], false⟩
  | .panicked => none
  | .pool allIPs portList =>
    some ⟨.waiting, dispatch (fun _ => false) allIPs portList, false, [],
      List.replicate c.threads .idle, false, [], [], [], false⟩

/-- One step of one goroutine of `ScanPorts`. A send on `taskChan` needs room in the
buffer: every receiver is one of the `threads` workers, and a hand-over to a waiting
worker is a `push` followed by a `take`. -/
inductive Step (c : Scan) : Pool → Pool → Prop where
  /-- Lines 329 and 337: the error result is sent, then the deferred calls run. -/
  | sendError (s : Pool) (r : ScanResult) (h : s.main = .sendError r) :
      Step c s { s with main := .returned, stream := s.stream ++ [r], ctxDone := true,
                        resultChanClosed := true }
  /-- Line 385: `wg.Wait()` returns once every worker has returned; the deferred calls
  `s.cancel()` and `close(resultChan)` run. -/
  | mainReturn (s : Pool) (h : s.main = .waiting) (hw : ∀ wk ∈ s.workers, wk = Worker.exited) :
      Step c s { s with main := .returned, ctxDone := true, resultChanClosed := true }
  /-- Line 374: the dispatcher pushes its next task. -/
  | push (s : Pool) (t : ScanTask) (ts : List ScanTask) (hc : s.taskChanClosed = false)
      (h : s.todo = t :: ts) (hroom : s.taskChan.length < c.threads) :
      Step c s { s with todo := ts, taskChan := s.taskChan ++ [t], pushed := s.pushed ++ [t] }
  /-- Line 378: the dispatcher sees the context cancelled and returns. -/
  | dispatchCancel (s : Pool) (t : ScanTask) (ts : List ScanTask) (hc : s.taskChanClosed = false)
      (h : s.todo = t :: ts) (hd : s.ctxDone = true) :
      Step c s { s with taskChanClosed := true }
  /-- Line 370: the dispatcher has pushed every task and closes `taskChan`. -/
  | dispatchEnd (s : Pool) (hc : s.taskChanClosed = false) (h : s.todo = []) :
      Step c s { s with taskChanClosed := true }
  /-- Lines 352 to 358: worker `i` receives a task and runs the probe on it. -/
  | take (s : Pool) (i : Nat) (t : ScanTask) (q : List ScanTask) (hi : s.workers.get? i = some .idle)
      (h : s.taskChan = t :: q) :
      Step c s { s with workers := s.workers.set i (.sending (c.probe t).1), taskChan := q,
                        effects := s.effects ++ (c.probe t).2 }
  /-- Line 352: `taskChan` is closed and empty, worker `i` leaves its loop. -/
  | workerEnd (s : Pool) (i : Nat) (hi : s.workers.get? i = some .idle) (h : s.taskChan = [])
      (hc : s.taskChanClosed = true) :
      Step c s { s with workers := s.workers.set i .exited }
  /-- Line 360: worker `i` delivers its result. -/
  | deliver (s : Pool) (i : Nat) (r : ScanResult) (hi : s.workers.get? i = some (.sending r))
      (hopen : s.resultChanClosed = false) :
      Step c s { s with workers := s.workers.set i .idle, stream := s.stream ++ [r] }
  /-- Line 361: worker `i` sees the context cancelled and returns. -/
  | workerCancel (s : Pool) (i : Nat) (r : ScanResult)
      (hi : s.workers.get? i = some (.sending r)) (hd : s.ctxDone = true) :
      Step c s { s with workers := s.workers.set i .exited }

/-- The states a call of `ScanPorts` can reach from `s0`. -/
def Reachable (c : Scan) (s0 s : Pool) : Prop :=
  Relation.ReflTransGen (Step c) s0 s

/-- The task a result answers. -/
def ScanResult.task (r : ScanResult) : ScanTask := ⟨r.IP, r.Port⟩

/-- The result a worker holds, if any. -/
def Worker.held : Worker → List ScanResult
  | .sending r => [r]
  | _ => []

/-- What a worker still has to do, for the measure of a state. -/
def Worker.weight : Worker → Nat
  | .idle => 1
  | .sending _ => 2
  | .exited => 0

/-- A bound on the number of steps left from a state. -/
def Pool.measure (s : Pool) : Nat :=
  3 * s.todo.length + 2 * s.taskChan.length + (s.workers.map Worker.weight).sum +
    (if s.taskChanClosed then 0 else 1) + (if s.main = .returned then 0 else 1)

/-- What holds in every state of a call of `ScanPorts` that started its workers and its
dispatcher on the tasks `T`. -/
structure PoolInv (c : Scan) (T : List ScanTask) (s : Pool) : Prop where
  /-- The dispatcher pushes the tasks in order. -/
  order : s.pushed ++ s.todo = T
  /-- Every task pushed is in the buffer, held by a worker as its result, or answered on
  the stream. -/
  conserve : List.Perm s.pushed
    (s.stream.map ScanResult.task ++ (s.workers.flatMap Worker.held).map ScanResult.task ++
      s.taskChan)
  noError : ∀ r, s.main ≠ .sendError r
  closedIff : s.resultChanClosed = true ↔ s.main = .returned
  doneIff : s.ctxDone = true ↔ s.main = .returned
  /-- The function returns only after every worker has. -/
  joined : s.main = .returned → ∀ wk ∈ s.workers, wk = Worker.exited
  /-- A worker returns only when `taskChan` is closed and empty. -/
  drained : (∃ wk ∈ s.workers, wk = Worker.exited) → s.taskChanClosed = true ∧ s.taskChan = []
  count : s.workers.length = c.threads
  /-- With a worker present the dispatcher closes `taskChan` only after its last push. -/
  finished : s.taskChanClosed = true → s.todo = [] ∨ c.threads = 0
  /-- Unless the context is cancelled the dispatcher closes `taskChan` only after its last
  push. -/
  uncancelled : s.taskChanClosed = true → s.todo = [] ∨ s.ctxDone = true

/-! ## `app.go`: the controller -/

/-- A `float64` value: a finite value, kept as the rational it stands for, an infinity or
a NaN. The sign of a zero is not kept: in this program a zero divisor is always the
positive zero `float64(0)`. -/
inductive F64 where
  | fin (q : ℚ)
  | posInf
  | negInf
  | nan
deriving DecidableEq

namespace F64

/-- The integer nearest to `q`, the even one of the two when `q` is half-way. -/
def roundHalfEven (q : ℚ) : Int :=
  if q - ⌊q⌋ < 1 / 2 then ⌊q⌋
  else if 1 / 2 < q - ⌊q⌋ then ⌊q⌋ + 1
  else if ⌊q⌋ % 2 = 0 then ⌊q⌋
  else ⌊q⌋ + 1

/-- The exponent of the last place of the binary64 values next to `q`: 52 below the
exponent of `q` (a significand of 53 bits), and `-1074` for the subnormal values. -/
def lastPlace (q : ℚ) : Int :=
  max (Int.log 2 |q| - 52) (-1074)

/-- The multiple of `2 ^ lastPlace q` nearest to `q`, ties to even: the binary64 value
nearest to `q` when the exponent is not bounded above. -/
def nearest (q : ℚ) : ℚ :=
  (roundHalfEven (q / 2 ^ lastPlace q) : ℚ) * 2 ^ lastPlace q

/-- The rounding of IEEE 754 binary64, to nearest with ties to even, of the exact result
`q` of an operation; it overflows to an infinity from `2 ^ 1024` on. -/
def round (q : ℚ) : F64 :=
  if 2 ^ 1024 ≤ nearest q then posInf
  else if nearest q ≤ -2 ^ 1024 then negInf
  else fin (nearest q)

/-- The product `x * y`. -/
def mul : F64 → F64 → F64
  | fin a, fin b => round (a * b)
  | nan, _ => nan
  | _, nan => nan
  | fin a, posInf => if a = 0 then nan else if 0 < a then posInf else negInf
  | fin a, negInf => if a = 0 then nan else if 0 < a then negInf else posInf
  | posInf, fin b => if b = 0 then nan else if 0 < b then posInf else negInf
  | negInf, fin b => if b = 0 then nan else if 0 < b then negInf else posInf
  | posInf, posInf => posInf
  | negInf, negInf => posInf
  | posInf, negInf => negInf
  | negInf, posInf => negInf

/-- The quotient `x / y`; a zero divisor is the positive zero. -/
def div : F64 → F64 → F64
  | fin a, fin b =>
    if b = 0 then (if a = 0 then nan else if 0 < a then posInf else negInf)
    else round (a / b)
  | nan, _ => nan
  | _, nan => nan
  | fin _, posInf => fin 0
  | fin _, negInf => fin 0
  | posInf, fin b => if 0 ≤ b then posInf else negInf
  | negInf, fin b => if 0 ≤ b then negInf else posInf
  | posInf, posInf => nan
  | negInf, negInf => nan
  | posInf, negInf => nan
  | negInf, posInf => nan

/-- The difference `x - y`. -/
def sub : F64 → F64 → F64
  | fin a, fin b => round (a - b)
  | nan, _ => nan
  | _, nan => nan
  | fin _, posInf => negInf
  | fin _, negInf => posInf
  | posInf, fin _ => posInf
  | negInf, fin _ => negInf
  | posInf, posInf => nan
  | negInf, negInf => nan
  | posInf, negInf => posInf
  | negInf, posInf => negInf

/-- The comparison `x <= y`, false when an operand is NaN. -/
def le : F64 → F64 → Bool
  | fin a, fin b => decide (a ≤ b)
  | nan, _ => false
  | _, nan => false
  | negInf, _ => true
  | _, posInf => true
  | _, _ => false

/-- The conversion `float64(n)` of an `int`. -/
def ofInt (n : Int) : F64 := round n

end F64

namespace App

/-- A call of `runtime.EventsEmit`: a result (serialised as JSON) under `scan_result`, or
a percentage under `scan_progress`. -/
inductive Event where
  | scanResult (r : ScanResult)
  | scanProgress (p : F64)
deriving DecidableEq

/-- The progress fields of the struct `App`, with the events emitted so far. Times are in
nanoseconds. -/
structure State where
  totalTasks : Int
  finishedTasks : Int
  lastProgress : F64
  lastUpdate : Int
  events : List Event

/-- The loop of lines 70 to 76 with the count `totalIPs` so far: fragments that do not
parse are skipped. -/
def countIPs (w : Externals) (fuel : Nat) : List String → Int → Option Int
  | [], totalIPs => some totalIPs
  | ipRange :: rest, totalIPs =>
    match ParseIPRange w fuel (strings.TrimSpace ipRange) with
    | none => none
    | some (.error _) => countIPs w fuel rest totalIPs
    | some (.ok ips) => countIPs w fuel rest (totalIPs + ips.length)

/-- The value given to `a.totalTasks` on line 77; the error of `ParsePortRange` is dropped
and its list is then nil. -/
def totalTasks (w : Externals) (fuel : Nat) (ips ports : String) : Option Int :=
  let portList : List Int :=
    match ParsePortRange ports with
    | .ok l => l
    | .error _ => []
  match countIPs w fuel (strings.Split ips ',') 0 with
  | none => none
  | some totalIPs => some (totalIPs * portList.length)

/-- The progress fields after lines 61 to 77, at time `now`. -/
def reset (total : Int) (now : Int) : State :=
  ⟨total, 0, F64.fin 0, now, []⟩

/-- The value `float64(finished) * 100 / float64(total)` of line 100. -/
def progress (finished total : Int) : F64 :=
  F64.div (F64.mul (F64.ofInt finished) (F64.fin 100)) (F64.ofInt total)

/-- The body of the loop over `resultChan`, lines 93 to 108, for a result received at time
`now` while `ctx` is not cancelled. -/
def handleResult (a : State) (result : ScanResult) (now : Int) : State :=
  let finished := a.finishedTasks + 1
  let p := progress finished a.totalTasks
  if F64.le (F64.fin 1) (F64.sub p a.lastProgress) ∨ now - a.lastUpdate ≥ 100000000 then
    { a with finishedTasks := finished, lastProgress := p, lastUpdate := now,
             events := a.events ++ [.scanResult result, .scanProgress p] }
  else
    { a with finishedTasks := finished, events := a.events ++ [.scanResult result] }

/-- The loop `for result := range resultChan` over the results of a stream, the result
number `k` received at time `clock k`. -/
def consume (clock : Nat → Int) : State → List ScanResult → State
  | a, [] => a
  | a, r :: rs => consume clock (handleResult a r (clock a.finishedTasks.toNat)) rs

/-- The percentages emitted under `scan_progress`, in order. -/
def progressEvents : List Event → List F64
  | [] => []
  | .scanProgress p :: es => p :: progressEvents es
  | .scanResult _ :: es => progressEvents es

/-- The select of lines 114 to 119: `none` while neither channel is ready, and `pick`
decides when both are. -/
def waitOutcome (ctxDone scanComplete pick : Bool) : Option String :=
  match ctxDone, scanComplete with
  | false, false => none
  | true, false => some "scan_cancelled"
  | false, true => some "scan_complete"
  | true, true => if pick then some "scan_cancelled" else some "scan_complete"

end App

/-! ## The statements of the specification -/

namespace Spec

/-- The non-empty trimmed comma tokens of a port specification, in input order. -/
def portTokens (portRange : String) : List String :=
  ((strings.Split portRange ',').map strings.TrimSpace).filter (fun p => p ≠ "")

/-- The integers `a, a + 1, ..., b` in ascending order. -/
def ascending (a b : Int) : List Int :=
  (List.range (b + 1 - a).toNat).map (fun (k : Nat) => a + (k : Int))

/-- What a port token says: a single integer, a range of two integers, or neither. -/
inductive Token where
  | single (n : Int)
  | range (a b : Int)
  | malformed
deriving DecidableEq, Repr

/-- The reading of a port token: one with a dash is a range `a-b` when it has exactly two
parts that are integers, one without is a single integer. -/
def readToken (tok : String) : Token :=
  if strings.Contains tok '-' then
    match strings.Split tok '-' with
    | [x, y] =>
      match strconv.Atoi (strings.TrimSpace x), strconv.Atoi (strings.TrimSpace y) with
      | some a, some b => .range a b
      | _, _ => .malformed
    | _ => .malformed
  else
    match strconv.Atoi tok with
    | some n => .single n
    | none => .malformed

/-- The expansion of a port token: `[n]` for a single integer `n`, the ascending run
`a, ..., b` for a range `a-b`. -/
def tokenExpansion (tok : String) : List Int :=
  match readToken tok with
  | .single n => [n]
  | .range a b => ascending a b
  | .malformed => []

/-- The size of the segment of a port token: `1` for a single integer, `b - a + 1` for a
range `a-b`. -/
def segmentSize (tok : String) : Int :=
  match readToken tok with
  | .single _ => 1
  | .range a b => b - a + 1
  | .malformed => 0

/-- A single integer in `[1, 65535]`. -/
def validSingle (tok : String) : Bool :=
  match strconv.Atoi tok with
  | some n => decide (1 ≤ n ∧ n ≤ 65535)
  | none => false

/-- A range `start-end` of two integers with `1 ≤ start ≤ end ≤ 65535`. -/
def validRange (tok : String) : Bool :=
  match strings.Split tok '-' with
  | [x, y] =>
    match strconv.Atoi (strings.TrimSpace x), strconv.Atoi (strings.TrimSpace y) with
    | some a, some b => decide (1 ≤ a ∧ a ≤ b ∧ b ≤ 65535)
    | _, _ => false
  | _ => false

/-- A port token of the data model: a single integer in `[1, 65535]`, or a range
`start-end` of two integers with `1 ≤ start ≤ end ≤ 65535`. -/
def validToken (tok : String) : Bool :=
  validSingle tok || validRange tok

/-- The first token of a port specification that is not a port token of the data model. -/
def firstInvalid (portRange : String) : Option String :=
  (portTokens portRange).find? (fun tok => !validToken tok)

/-- The three errors of `ParsePorts` in the specification. -/
inductive ErrKind where
  | invalidPort
  | outOfRange
  | invalidRange
deriving DecidableEq, Repr

/-- The error of the specification that a message of `ParsePortRange` stands for: the
messages read "port range format error", "invalid start port", "invalid end port",
"invalid port number" (all `InvalidPort`), "port number out of range" (`OutOfRange`) and
"port range invalid" (`InvalidRange`). -/
def errKind (msg : String) : Option ErrKind :=
  if msg = "端口范围格式错误" ∨ msg = "无效的起始端口" ∨ msg = "无效的结束端口" ∨
      msg = "无效的端口号" then some .invalidPort
  else if msg = "端口号超出范围" then some .outOfRange
  else if msg = "端口范围无效" then some .invalidRange
  else none

/-- The numeric ends of a dash segment of an address specification: the two trimmed
parts of the segment read as IP addresses and taken as 32-bit big-endian integers. -/
def addressRange (w : Externals) (seg : String) : Option (Nat × Nat) :=
  match strings.Split seg '-' with
  | [p0, p1] =>
    match net.ParseIP w.parseIPv6 (strings.TrimSpace p0),
          net.ParseIP w.parseIPv6 (strings.TrimSpace p1) with
    | some a, some b => some (ipToUint32 a, ipToUint32 b)
    | _, _ => none
  | _ => none

/-- An address segment below the last address: a segment without a dash, or a range
`a-b` of two IP addresses with `numeric(a) ≤ numeric(b)` and `b` not `255.255.255.255`. -/
def expandable (w : Externals) (seg : String) : Bool :=
  if strings.Contains seg '-' then
    match addressRange w seg with
    | some (a, b) => decide (a ≤ b ∧ b < 2 ^ 32 - 1)
    | none => false
  else true

/-- The expansion of an address segment: the segment itself when it has no dash, the
dotted quads of `numeric(a), numeric(a) + 1, ..., numeric(b)` for a range `a-b`. -/
def addressExpansion (w : Externals) (seg : String) : List String :=
  if strings.Contains seg '-' then
    match addressRange w seg with
    | some (a, b) =>
      (List.range (b + 1 - a)).map (fun (k : Nat) => net.IPString (uint32ToIP (a + k)))
    | none => []
  else [seg]

/-- The state of the result of the raw probe as the specification maps the outcome of the
backend: the error text, else the joined warnings, else `closed` without a host, else the
state of the first port record with the requested id, else `closed`. -/
def rawProbeState (out : nmap.Outcome) (port : Int) : String :=
  match out.newScannerErr, out.runErr with
  | some err, _ => err
  | none, some err => err
  | none, none =>
    if out.warnings.getD [] ≠ [] then strings.Join (out.warnings.getD []) "; "
    else if out.hosts = [] then "closed"
    else
      match ((out.hosts.map nmap.Host.Ports).flatten).find? (fun p => decide ((p.ID : Int) = port)) with
      | some p => p.State
      | none => "closed"

end Spec


/-! ## Port range parsing: what a successful parse returns -/

theorem Spec.ascending_of_lt (a b : Int) (h : b < a) : Spec.ascending a b = [] := by
  have : (b + 1 - a).toNat = 0 := by omega
  simp [Spec.ascending, this]

theorem Spec.ascending_of_le (a b : Int) (h : a ≤ b) :
    Spec.ascending a b = a :: Spec.ascending (a + 1) b := by
  have h1 : (b + 1 - a).toNat = (b + 1 - (a + 1)).toNat + 1 := by omega
  simp only [Spec.ascending, h1, List.range_succ_eq_map, List.map_cons, List.map_map]
  simp only [Nat.cast_zero, add_zero, List.cons.injEq, true_and]
  apply List.map_congr_left
  intro k _
  simp only [Function.comp, Nat.cast_succ]
  ring

theorem Spec.length_ascending (a b : Int) : (Spec.ascending a b).length = (b + 1 - a).toNat := by
  simp [Spec.ascending]

theorem Spec.mem_ascending (a b p : Int) (h : p ∈ Spec.ascending a b) : a ≤ p ∧ p ≤ b := by
  simp only [Spec.ascending, List.mem_map, List.mem_range] at h
  obtain ⟨k, hk, rfl⟩ := h
  omega

theorem portLoop_eq (fuel : Nat) : ∀ (i stop : Int) (ports : List Int),
    (stop + 1 - i).toNat ≤ fuel → portLoop fuel i stop ports = ports ++ Spec.ascending i stop := by
  induction fuel with
  | zero =>
    intro i stop ports h
    have : stop < i := by omega
    simp [portLoop, Spec.ascending_of_lt _ _ this]
  | succ n ih =>
    intro i stop ports h
    by_cases hle : i ≤ stop
    · rw [portLoop, if_pos hle, ih (i + 1) stop _ (by omega), Spec.ascending_of_le _ _ hle]
      simp
    · have : stop < i := by omega
      rw [portLoop, if_neg hle, Spec.ascending_of_lt _ _ this]
      simp

/-- One iteration of the loop of `ParsePortRange` on an accepted token appends the
expansion of the token; on a token that is not accepted the loop ends with an error. -/
theorem ParsePortRange.loop_cons_ok (p0 : String) (rest : List String) (ports l : List Int)
    (h : ParsePortRange.loop (p0 :: rest) ports = .ok l) :
    (strings.TrimSpace p0 = "" ∧ ParsePortRange.loop rest ports = .ok l) ∨
    (strings.TrimSpace p0 ≠ "" ∧
      ParsePortRange.loop rest (ports ++ Spec.tokenExpansion (strings.TrimSpace p0)) = .ok l ∧
      ((Spec.tokenExpansion (strings.TrimSpace p0)).length : Int) =
        Spec.segmentSize (strings.TrimSpace p0) ∧
      ∀ p ∈ Spec.tokenExpansion (strings.TrimSpace p0), 1 ≤ p ∧ p ≤ 65535) := by
  rw [ParsePortRange.loop] at h
  by_cases he : strings.TrimSpace p0 = ""
  · left
    rw [if_pos he] at h
    exact ⟨he, h⟩
  · right
    refine ⟨he, ?_⟩
    rw [if_neg he] at h
    by_cases hc : strings.Contains (strings.TrimSpace p0) '-' = true
    · rw [if_pos hc] at h
      split at h
      · rename_i part0 part1 hsplit
        split at h
        · exact absurd h (by simp)
        · rename_i start hstart
          split at h
          · exact absurd h (by simp)
          · rename_i stop hstop
            split at h
            · exact absurd h (by simp)
            · rename_i hcond
              have hexp : Spec.tokenExpansion (strings.TrimSpace p0) = Spec.ascending start stop := by
                simp [Spec.tokenExpansion, Spec.readToken, hc, hsplit, hstart, hstop]
              have hsz : Spec.segmentSize (strings.TrimSpace p0) = stop - start + 1 := by
                simp [Spec.segmentSize, Spec.readToken, hc, hsplit, hstart, hstop]
              rw [portLoop_eq _ _ _ _ (by omega)] at h
              rw [hexp, hsz]
              refine ⟨h, ?_, ?_⟩
              · rw [Spec.length_ascending]; omega
              · intro p hp
                have := Spec.mem_ascending _ _ _ hp
                omega
      · exact absurd h (by simp)
    · rw [if_neg hc] at h
      split at h
      · exact absurd h (by simp)
      · rename_i port hport
        split at h
        · exact absurd h (by simp)
        · rename_i hcond
          have hexp : Spec.tokenExpansion (strings.TrimSpace p0) = [port] := by
            simp [Spec.tokenExpansion, Spec.readToken, hc, hport]
          have hsz : Spec.segmentSize (strings.TrimSpace p0) = 1 := by
            simp [Spec.segmentSize, Spec.readToken, hc, hport]
          rw [hexp, hsz]
          refine ⟨h, by simp, ?_⟩
          intro p hp
          simp only [List.mem_singleton] at hp
          omega

theorem ParsePortRange.loop_ok (toks : List String) : ∀ (ports l : List Int),
    ParsePortRange.loop toks ports = .ok l →
    l = ports ++ (((toks.map strings.TrimSpace).filter (fun p => p ≠ "")).flatMap
          Spec.tokenExpansion) ∧
    (∀ tok ∈ (toks.map strings.TrimSpace).filter (fun p => p ≠ ""),
      ((Spec.tokenExpansion tok).length : Int) = Spec.segmentSize tok ∧
      ∀ p ∈ Spec.tokenExpansion tok, 1 ≤ p ∧ p ≤ 65535) := by
  induction toks with
  | nil =>
    intro ports l h
    simp [ParsePortRange.loop] at h
    simp [h]
  | cons p0 rest ih =>
    intro ports l h
    rcases ParsePortRange.loop_cons_ok p0 rest ports l h with ⟨he, h1⟩ | ⟨hne, h1, hsz, hb⟩
    · obtain ⟨e1, e2⟩ := ih _ _ h1
      have hf : ((p0 :: rest).map strings.TrimSpace).filter (fun p => p ≠ "") =
          (rest.map strings.TrimSpace).filter (fun p => p ≠ "") := by
        rw [List.map_cons, List.filter_cons_of_neg]
        simp [he]
      rw [hf]
      exact ⟨e1, e2⟩
    · obtain ⟨e1, e2⟩ := ih _ _ h1
      have hf : ((p0 :: rest).map strings.TrimSpace).filter (fun p => p ≠ "") =
          strings.TrimSpace p0 ::
            (rest.map strings.TrimSpace).filter (fun p => p ≠ "") := by
        rw [List.map_cons, List.filter_cons_of_pos]
        simp [hne]
      rw [hf]
      refine ⟨by simp [e1], ?_⟩
      intro tok htok
      rcases List.mem_cons.mp htok with rfl | hin
      · exact ⟨hsz, hb⟩
      · exact e2 tok hin

theorem Spec.sum_length_flatMap (toks : List String)
    (h : ∀ tok ∈ toks, ((Spec.tokenExpansion tok).length : Int) = Spec.segmentSize tok) :
    (((toks.flatMap Spec.tokenExpansion).length : Nat) : Int) = (toks.map Spec.segmentSize).sum := by
  induction toks with
  | nil => simp
  | cons t ts ih =>
    have h1 := h t (List.mem_cons_self _ _)
    have h2 := ih (fun tok ht => h tok (List.mem_cons_of_mem _ ht))
    simp only [List.flatMap_cons, List.length_append, Nat.cast_add, List.map_cons, List.sum_cons]
    rw [h1, h2]

/-- C1: when `ParsePortRange` succeeds, the list it returns is the concatenation, in comma
token order, of the expansions of the non-empty trimmed tokens (a single integer `n` gives
`[n]`, a range `a-b` gives `a, ..., b` ascending), nothing removed or reordered; its
length is the sum of the segment sizes and every port lies in `[1, 65535]`. `80-82` gives
`[80, 81, 82]` and `22,80-82,443` gives `[22, 80, 81, 82, 443]`. -/
theorem ParsePortRange_ok_eq_expansion (portRange : String) (l : List Int)
    (h : ParsePortRange portRange = .ok l) :
    l = (Spec.portTokens portRange).flatMap Spec.tokenExpansion ∧
    (l.length : Int) = ((Spec.portTokens portRange).map Spec.segmentSize).sum ∧
    (∀ p ∈ l, 1 ≤ p ∧ p ≤ 65535) ∧
    ParsePortRange "80-82" = .ok [80, 81, 82] ∧
    ParsePortRange "22,80-82,443" = .ok [22, 80, 81, 82, 443] := by
  obtain ⟨e1, e2⟩ := ParsePortRange.loop_ok _ _ _ h
  simp only [List.nil_append] at e1
  refine ⟨e1, ?_, ?_, by decide, by decide⟩
  · rw [e1]
    exact Spec.sum_length_flatMap _ (fun tok ht => (e2 tok ht).1)
  · intro p hp
    rw [e1] at hp
    obtain ⟨tok, htok, hp1⟩ := List.mem_flatMap.mp hp
    exact (e2 tok htok).2 p hp1

theorem ParsePortRange_ok_eq_expansion_witness :
    ParsePortRange "22, 80-82,,443" = .ok [22, 80, 81, 82, 443] ∧
    [22, 80, 81, 82, 443] = (Spec.portTokens "22, 80-82,,443").flatMap Spec.tokenExpansion ∧
    (([22, 80, 81, 82, 443] : List Int).length : Int) =
      ((Spec.portTokens "22, 80-82,,443").map Spec.segmentSize).sum :=
  ⟨by decide,
   (ParsePortRange_ok_eq_expansion "22, 80-82,,443" [22, 80, 81, 82, 443] (by decide)).1,
   (ParsePortRange_ok_eq_expansion "22, 80-82,,443" [22, 80, 81, 82, 443] (by decide)).2.1⟩

/-! ## Port range parsing: when it fails, and with which error -/

theorem strings.splitChars_of_not_mem (sep : Char) (l : List Char) (h : sep ∉ l) :
    strings.splitChars sep l = [l] := by
  induction l with
  | nil => rfl
  | cons c cs ih =>
    have hc : c ≠ sep := fun e => h (by simp [e])
    have hcs : sep ∉ cs := fun e => h (List.mem_cons_of_mem _ e)
    rw [strings.splitChars, if_neg hc, ih hcs]

theorem strings.Split_of_not_Contains (s : String) (sep : Char)
    (h : strings.Contains s sep = false) : strings.Split s sep = [s] := by
  have hm : sep ∉ s.data := by
    intro hin
    simp [strings.Contains, hin] at h
  simp [strings.Split, strings.splitChars_of_not_mem sep s.data hm]

theorem strconv.digitsVal_digits (ds : List Char) : ∀ (acc n : Nat),
    strconv.digitsVal ds acc = some n → ∀ c ∈ ds, 48 ≤ c.toNat := by
  induction ds with
  | nil => intro _ _ _ c hc; cases hc
  | cons d ds ih =>
    intro acc n h c hc
    rw [strconv.digitsVal] at h
    split at h
    · rename_i hd
      rcases List.mem_cons.mp hc with rfl | hin
      · exact hd.1
      · exact ih _ _ h c hin
    · cases h

/-- A string that `strconv.Atoi` reads as a positive integer contains no dash. -/
theorem strconv.Atoi_pos_not_Contains (s : String) (n : Int) (h : strconv.Atoi s = some n)
    (hn : 1 ≤ n) : strings.Contains s '-' = false := by
  unfold strconv.Atoi at h
  split at h
  · cases h
  · rename_i c cs hdata
    simp only at h
    split at h
    · cases h
    · rename_i d ds1 hds
      split at h
      · cases h
      · rename_i m hm
        have hdig := strconv.digitsVal_digits _ _ _ hm
        have hdash : ('-' : Char).toNat = 45 := by decide
        by_cases hc : c = '-'
        · simp only [hc, decide_True, if_true] at h
          split at h
          · simp only [Option.some.injEq] at h; omega
          · cases h
        · have hno : '-' ∉ c :: cs := by
            intro hin
            rcases List.mem_cons.mp hin with e | hin
            · exact hc e.symm
            · by_cases hp : c = '+'
              · have hds2 : cs = d :: ds1 := by simpa [hp] using hds
                rw [hds2] at hin
                have := hdig _ hin
                omega
              · have hds2 : c :: cs = d :: ds1 := by simpa [hc, hp] using hds
                have hin2 : '-' ∈ d :: ds1 := by
                  rw [← hds2]; exact List.mem_cons_of_mem _ hin
                have := hdig _ hin2
                omega
          simp only [strings.Contains, hdata]
          simpa using hno

theorem Spec.validSingle_of_Contains (p : String) (hc : strings.Contains p '-' = true) :
    Spec.validSingle p = false := by
  unfold Spec.validSingle
  cases hn : strconv.Atoi p with
  | none => rfl
  | some n =>
    by_cases h1 : 1 ≤ n
    · have := strconv.Atoi_pos_not_Contains _ _ hn h1
      rw [hc] at this
      cases this
    · simp [h1]

theorem Spec.validRange_of_not_Contains (p : String) (hc : strings.Contains p '-' = false) :
    Spec.validRange p = false := by
  unfold Spec.validRange
  rw [strings.Split_of_not_Contains _ _ hc]

/-- One iteration of the loop of `ParsePortRange` on a non-empty trimmed token: a port
token of the data model is expanded; any other ends the loop with an error, which for a
token without a dash is the out-of-range error when the token is an integer and the
invalid-port error when it is not, and for a token with a dash is the invalid-range error
when the token splits at the dash into two integers and the invalid-port error when it
does not. -/
theorem ParsePortRange.loop_cons_token (p0 : String) (rest : List String) (ports : List Int)
    (hne : strings.TrimSpace p0 ≠ "") :
    (Spec.validToken (strings.TrimSpace p0) = true ∧
      ParsePortRange.loop (p0 :: rest) ports =
        ParsePortRange.loop rest (ports ++ Spec.tokenExpansion (strings.TrimSpace p0))) ∨
    (Spec.validToken (strings.TrimSpace p0) = false ∧
      ∃ e, ParsePortRange.loop (p0 :: rest) ports = .error e ∧
        ((Spec.errKind e = some .outOfRange ∧
            strings.Contains (strings.TrimSpace p0) '-' = false ∧
            ∃ n, strconv.Atoi (strings.TrimSpace p0) = some n ∧ (n < 1 ∨ 65535 < n)) ∨
         (Spec.errKind e = some .invalidRange ∧
            strings.Contains (strings.TrimSpace p0) '-' = true ∧
            ∃ x y a b, strings.Split (strings.TrimSpace p0) '-' = [x, y] ∧
              strconv.Atoi (strings.TrimSpace x) = some a ∧
              strconv.Atoi (strings.TrimSpace y) = some b ∧
              (b < a ∨ a < 1 ∨ 65535 < b)) ∨
         (Spec.errKind e = some .invalidPort ∧
            ((strings.Contains (strings.TrimSpace p0) '-' = false ∧
                strconv.Atoi (strings.TrimSpace p0) = none) ∨
             (strings.Contains (strings.TrimSpace p0) '-' = true ∧
                ¬ ∃ x y a b, strings.Split (strings.TrimSpace p0) '-' = [x, y] ∧
                  strconv.Atoi (strings.TrimSpace x) = some a ∧
                  strconv.Atoi (strings.TrimSpace y) = some b))))) := by
  rw [ParsePortRange.loop]
  simp only [if_neg hne]
  generalize strings.TrimSpace p0 = p
  by_cases hc : strings.Contains p '-' = true
  · rw [Spec.validToken, Spec.validSingle_of_Contains p hc, Bool.false_or, if_pos hc]
    simp only [Spec.tokenExpansion, Spec.readToken, if_pos hc, Spec.validRange]
    rcases hs : strings.Split p '-' with _ | ⟨x, _ | ⟨y, _ | ⟨z, zs⟩⟩⟩
    · right
      refine ⟨rfl, _, rfl, Or.inr (Or.inr ⟨by decide, Or.inr ⟨hc, ?_⟩⟩)⟩
      rintro ⟨x, y, a, b, h, _⟩
      cases h
    · right
      refine ⟨rfl, _, rfl, Or.inr (Or.inr ⟨by decide, Or.inr ⟨hc, ?_⟩⟩)⟩
      rintro ⟨x, y, a, b, h, _⟩
      cases h
    · cases hstart : strconv.Atoi (strings.TrimSpace x) with
      | none =>
        right
        simp only [hstart]
        refine ⟨trivial, _, rfl, Or.inr (Or.inr ⟨by decide, Or.inr ⟨hc, ?_⟩⟩)⟩
        rintro ⟨x1, y1, a, b, h, ha, _⟩
        simp only [List.cons.injEq, and_true] at h
        rw [← h.1, hstart] at ha
        cases ha
      | some start =>
        cases hstop : strconv.Atoi (strings.TrimSpace y) with
        | none =>
          right
          simp only [hstart, hstop]
          refine ⟨trivial, _, rfl, Or.inr (Or.inr ⟨by decide, Or.inr ⟨hc, ?_⟩⟩)⟩
          rintro ⟨x1, y1, a, b, h, _, hb⟩
          simp only [List.cons.injEq, and_true] at h
          rw [← h.2, hstop] at hb
          cases hb
        | some stop =>
          simp only [hstart, hstop]
          by_cases hcond : start > stop ∨ start < 1 ∨ stop > 65535
          · right
            simp only [if_pos hcond]
            refine ⟨?_, _, rfl, Or.inr (Or.inl ⟨by decide, hc, x, y, start, stop, rfl, hstart,
              hstop, ?_⟩)⟩
            · simp only [decide_eq_false_iff_not]
              omega
            · omega
          · left
            simp only [if_neg hcond]
            rw [portLoop_eq _ _ _ _ (by omega)]
            refine ⟨?_, rfl⟩
            simp only [decide_eq_true_eq]
            omega
    · right
      refine ⟨rfl, _, rfl, Or.inr (Or.inr ⟨by decide, Or.inr ⟨hc, ?_⟩⟩)⟩
      rintro ⟨x, y, a, b, h, _⟩
      cases h
  · have hcf : strings.Contains p '-' = false := by simpa using hc
    rw [Spec.validToken, Spec.validRange_of_not_Contains p hcf, Bool.or_false, if_neg hc]
    simp only [Spec.tokenExpansion, Spec.readToken, if_neg hc, Spec.validSingle]
    cases hport : strconv.Atoi p with
    | none =>
      right
      simp only [hport]
      exact ⟨trivial, _, rfl, Or.inr (Or.inr ⟨by decide, Or.inl ⟨hcf, trivial⟩⟩)⟩
    | some port =>
      simp only [hport]
      by_cases hcond : port < 1 ∨ port > 65535
      · right
        simp only [if_pos hcond]
        refine ⟨?_, _, rfl, Or.inl ⟨by decide, hcf, port, rfl, ?_⟩⟩
        · simp only [decide_eq_false_iff_not]
          omega
        · omega
      · left
        simp only [if_neg hcond, and_true, decide_eq_true_eq]
        omega

/-- The loop of `ParsePortRange` succeeds when every non-empty trimmed token is a port
token of the data model, and ends with the error of the first token that is not. -/
theorem ParsePortRange.loop_result (toks : List String) : ∀ (ports : List Int),
    (((toks.map strings.TrimSpace).filter (fun p => p ≠ "")).find?
        (fun tok => !Spec.validToken tok) = none ∧
      ∃ l, ParsePortRange.loop toks ports = .ok l) ∨
    (∃ tok e, ((toks.map strings.TrimSpace).filter (fun p => p ≠ "")).find?
        (fun tok => !Spec.validToken tok) = some tok ∧
      ParsePortRange.loop toks ports = .error e ∧
      ((Spec.errKind e = some .outOfRange ∧ strings.Contains tok '-' = false ∧
          ∃ n, strconv.Atoi tok = some n ∧ (n < 1 ∨ 65535 < n)) ∨
       (Spec.errKind e = some .invalidRange ∧ strings.Contains tok '-' = true ∧
          ∃ x y a b, strings.Split tok '-' = [x, y] ∧
            strconv.Atoi (strings.TrimSpace x) = some a ∧
            strconv.Atoi (strings.TrimSpace y) = some b ∧ (b < a ∨ a < 1 ∨ 65535 < b)) ∨
       (Spec.errKind e = some .invalidPort ∧
          ((strings.Contains tok '-' = false ∧ strconv.Atoi tok = none) ∨
           (strings.Contains tok '-' = true ∧
              ¬ ∃ x y a b, strings.Split tok '-' = [x, y] ∧
                strconv.Atoi (strings.TrimSpace x) = some a ∧
                strconv.Atoi (strings.TrimSpace y) = some b))))) := by
  induction toks with
  | nil =>
    intro ports
    left
    exact ⟨rfl, ports, rfl⟩
  | cons p0 rest ih =>
    intro ports
    by_cases he : strings.TrimSpace p0 = ""
    · have hf : ((p0 :: rest).map strings.TrimSpace).filter (fun p => p ≠ "") =
          (rest.map strings.TrimSpace).filter (fun p => p ≠ "") := by
        rw [List.map_cons, List.filter_cons_of_neg]
        simp [he]
      have hl : ParsePortRange.loop (p0 :: rest) ports = ParsePortRange.loop rest ports := by
        rw [ParsePortRange.loop]
        simp only [if_pos he]
      rw [hf, hl]
      exact ih ports
    · have hf : ((p0 :: rest).map strings.TrimSpace).filter (fun p => p ≠ "") =
          strings.TrimSpace p0 ::
            (rest.map strings.TrimSpace).filter (fun p => p ≠ "") := by
        rw [List.map_cons, List.filter_cons_of_pos]
        simp [he]
      rw [hf]
      rcases ParsePortRange.loop_cons_token p0 rest ports he with ⟨hv, hl⟩ | ⟨hv, e, hl, hk⟩
      · rw [hl, List.find?_cons_of_neg _ (by simp [hv])]
        exact ih _
      · right
        refine ⟨strings.TrimSpace p0, e, ?_, hl, hk⟩
        rw [List.find?_cons_of_pos _ (by simp [hv])]

/-- C4, as the code has it: `ParsePortRange` returns an error exactly when some non-empty
trimmed comma token is neither a single integer in `[1, 65535]` nor a range of two
integers with `1 ≤ start ≤ end ≤ 65535`, and the error is that of the first such token.
A token without a dash gets the out-of-range error when it is an integer (then outside
`[1, 65535]`) and the invalid-port error when it is not. A token with a dash, a signed
number such as `-5` included, is read as a range: it gets the invalid-range error when
it splits at the dash into exactly two trimmed integers (which then break one of
`1 ≤ start`, `start ≤ end`, `end ≤ 65535`) and the invalid-port error when it does not.
So `0-5` and `80-70000` get the invalid-range error, `0` and `70000` the out-of-range
error, `-5` and `abc` the invalid-port error. -/
theorem ParsePortRange_error_iff (portRange : String) :
    ((∃ e, ParsePortRange portRange = .error e) ↔
      ∃ tok ∈ Spec.portTokens portRange, Spec.validToken tok = false) ∧
    (∀ e, ParsePortRange portRange = .error e →
      ∃ tok, Spec.firstInvalid portRange = some tok ∧
        ((Spec.errKind e = some .outOfRange ∧ strings.Contains tok '-' = false ∧
            ∃ n, strconv.Atoi tok = some n ∧ (n < 1 ∨ 65535 < n)) ∨
         (Spec.errKind e = some .invalidRange ∧ strings.Contains tok '-' = true ∧
            ∃ x y a b, strings.Split tok '-' = [x, y] ∧
              strconv.Atoi (strings.TrimSpace x) = some a ∧
              strconv.Atoi (strings.TrimSpace y) = some b ∧ (b < a ∨ a < 1 ∨ 65535 < b)) ∨
         (Spec.errKind e = some .invalidPort ∧
            ((strings.Contains tok '-' = false ∧ strconv.Atoi tok = none) ∨
             (strings.Contains tok '-' = true ∧
                ¬ ∃ x y a b, strings.Split tok '-' = [x, y] ∧
                  strconv.Atoi (strings.TrimSpace x) = some a ∧
                  strconv.Atoi (strings.TrimSpace y) = some b))))) ∧
    ParsePortRange "0-5" = .error "端口范围无效" ∧
    ParsePortRange "80-70000" = .error "端口范围无效" ∧
    ParsePortRange "5-1" = .error "端口范围无效" ∧
    ParsePortRange "0" = .error "端口号超出范围" ∧
    ParsePortRange "70000" = .error "端口号超出范围" ∧
    ParsePortRange "-5" = .error "无效的起始端口" ∧
    ParsePortRange "abc" = .error "无效的端口号" ∧
    ParsePortRange "1-2-3" = .error "端口范围格式错误" ∧
    Spec.errKind "端口范围无效" = some .invalidRange ∧
    Spec.errKind "端口号超出范围" = some .outOfRange ∧
    Spec.errKind "无效的起始端口" = some .invalidPort ∧
    Spec.errKind "无效的端口号" = some .invalidPort ∧
    Spec.errKind "端口范围格式错误" = some .invalidPort := by
  refine ⟨?_, ?_, by decide, by decide, by decide, by decide, by decide, by decide, by decide,
    by decide, by decide, by decide, by decide, by decide, by decide⟩
  · unfold ParsePortRange Spec.portTokens
    rcases ParsePortRange.loop_result (strings.Split portRange ',') [] with
      ⟨hnone, l, hl⟩ | ⟨tok, e, hsome, hl, hk⟩
    · rw [hl]
      refine ⟨fun ⟨e, he⟩ => (by cases he), ?_⟩
      rintro ⟨tok, htok, hv⟩
      have := List.find?_eq_none.mp hnone tok htok
      simp [hv] at this
    · rw [hl]
      refine ⟨fun _ => ?_, fun _ => ⟨e, rfl⟩⟩
      refine ⟨tok, List.mem_of_find?_eq_some hsome, ?_⟩
      simpa using List.find?_some hsome
  · unfold ParsePortRange Spec.firstInvalid Spec.portTokens
    rcases ParsePortRange.loop_result (strings.Split portRange ',') [] with
      ⟨hnone, l, hl⟩ | ⟨tok, e, hsome, hl, hk⟩
    · rw [hl]
      intro e he
      cases he
    · rw [hl]
      intro e1 he1
      cases he1
      exact ⟨tok, hsome, hk⟩

/-- C4 as stated fails: `0-5` is a range whose start is not above its end, yet the code
answers it with the invalid-range error, the one it gives `5-1`, and not with the
out-of-range error it gives the single port `0`. -/
theorem ParsePortRange_error_kind_counterexample :
    ¬ (∀ (portRange e : String), ParsePortRange portRange = .error e →
        (Spec.errKind e = some .invalidRange ↔
          ∃ tok a b, Spec.firstInvalid portRange = some tok ∧
            Spec.readToken tok = .range a b ∧ a > b)) ∧
    ParsePortRange "0-5" = .error "端口范围无效" ∧
    ParsePortRange "5-1" = .error "端口范围无效" ∧
    ParsePortRange "80-70000" = .error "端口范围无效" ∧
    ParsePortRange "0" = .error "端口号超出范围" := by
  refine ⟨?_, by decide, by decide, by decide, by decide⟩
  intro h
  have h1 := (h "0-5" "端口范围无效" (by decide)).mp (by decide)
  obtain ⟨tok, a, b, ht, hr, hab⟩ := h1
  have ht2 : Spec.firstInvalid "0-5" = some "0-5" := by decide
  rw [ht2] at ht
  cases ht
  have hr2 : Spec.readToken "0-5" = .range 0 5 := by decide
  rw [hr2] at hr
  cases hr
  omega

/-! ## Address range parsing -/

theorem net.To4_IPv4 (a b c d : Nat) : net.To4 (net.IPv4 a b c d) = some [a, b, c, d] := by
  simp [net.To4, net.IPv4, net.v4InV6]

/-- The text of `uint32ToIP n` is the dotted quad of the four bytes of `n`. -/
theorem net.IPString_uint32ToIP (n : Nat) :
    net.IPString (uint32ToIP n) =
      Nat.repr ((n >>> 24) % 256) ++ "." ++ Nat.repr ((n >>> 16) % 256) ++ "." ++
        Nat.repr ((n >>> 8) % 256) ++ "." ++ Nat.repr (n % 256) := by
  simp only [net.IPString, uint32ToIP, net.To4_IPv4]

/-- The loop of `ParseIPRange` ends when its upper bound is below the largest `uint32`:
it returns the texts of `i, i + 1, ..., stop` in ascending order. -/
theorem ipLoop_eq (fuel : Nat) : ∀ (i stop : Nat) (ips : List String),
    stop < 2 ^ 32 - 1 → i ≤ stop + 1 → stop + 1 - i < fuel →
    ipLoop fuel i stop ips =
      some (ips ++ (List.range (stop + 1 - i)).map
        (fun k => net.IPString (uint32ToIP (i + k)))) := by
  induction fuel with
  | zero => intro i stop ips _ _ h; omega
  | succ n ih =>
    intro i stop ips hs hi hf
    by_cases hle : i ≤ stop
    · have hmod : (i + 1) % 2 ^ 32 = i + 1 := Nat.mod_eq_of_lt (by omega)
      rw [ipLoop, if_pos hle, hmod, ih (i + 1) stop _ hs (by omega) (by omega)]
      have hlen : stop + 1 - i = (stop + 1 - (i + 1)) + 1 := by omega
      rw [hlen, List.range_succ_eq_map]
      simp only [List.map_cons, List.map_map, List.append_assoc, List.singleton_append,
        Nat.add_zero]
      congr 3
      apply List.map_congr_left
      intro k _
      simp only [Function.comp, Nat.succ_eq_add_one]
      congr 2
      omega
    · have h0 : stop + 1 - i = 0 := by omega
      rw [ipLoop, if_neg hle, h0]
      simp

/-- The loop of `ParseIPRange` never ends when its upper bound is the largest `uint32`:
the test `i <= end` holds for every `uint32` and `i++` wraps around to zero. -/
theorem ipLoop_max (fuel : Nat) : ∀ (i : Nat) (ips : List String),
    i < 2 ^ 32 → ipLoop fuel i (2 ^ 32 - 1) ips = none := by
  induction fuel with
  | zero => intro i ips _; rfl
  | succ n ih =>
    intro i ips hi
    have hle : i ≤ 2 ^ 32 - 1 := by omega
    rw [ipLoop, if_pos hle]
    exact ih _ _ (Nat.mod_lt _ (by norm_num))

theorem net.ParseIP_max (w : Externals) :
    net.ParseIP w.parseIPv6 (strings.TrimSpace "255.255.255.255") =
      some (net.IPv4 255 255 255 255) := by
  rfl

/-- C2 fails at the largest address: for a range ending in `255.255.255.255` the loop of
`ParseIPRange` does not end, whatever the number of iterations allowed, so no list is
returned; this holds from every start of the loop. -/
theorem ParseIPRange_max_never_returns (w : Externals) (fuel : Nat) :
    ParseIPRange w fuel "255.255.255.255-255.255.255.255" = none ∧
    ParseIPRange w fuel "255.255.255.254-255.255.255.255" = none ∧
    (∀ (i : Nat) (ips : List String), i < 2 ^ 32 → ipLoop fuel i (2 ^ 32 - 1) ips = none) := by
  have h255 : ipToUint32 (net.IPv4 255 255 255 255) = 2 ^ 32 - 1 := by decide
  have h254 : ipToUint32 (net.IPv4 255 255 255 254) = 2 ^ 32 - 2 := by decide
  have hp254 : net.ParseIP w.parseIPv6 (strings.TrimSpace "255.255.255.254") =
      some (net.IPv4 255 255 255 254) := by rfl
  refine ⟨?_, ?_, ipLoop_max fuel⟩
  · have hc : strings.Contains "255.255.255.255-255.255.255.255" '-' = true := by decide
    have hs : strings.Split "255.255.255.255-255.255.255.255" '-' =
        ["255.255.255.255", "255.255.255.255"] := by decide
    simp only [ParseIPRange, hc, hs, net.ParseIP_max w, h255, lt_self_iff_false, if_false,
      Bool.not_true, Bool.false_eq_true]
    rw [ipLoop_max fuel _ _ (by norm_num)]
    rfl
  · have hc : strings.Contains "255.255.255.254-255.255.255.255" '-' = true := by decide
    have hs : strings.Split "255.255.255.254-255.255.255.255" '-' =
        ["255.255.255.254", "255.255.255.255"] := by decide
    simp only [ParseIPRange, hc, hs, net.ParseIP_max w, hp254, h255, h254, Bool.not_true,
      Bool.false_eq_true, if_false]
    rw [if_neg (by norm_num), ipLoop_max fuel _ _ (by norm_num)]
    rfl

/-- C3: on a segment with a dash, `ParseIPRange` returns an error, and no address,
when the segment does not split at the dash into exactly two parts, when one of the two
trimmed parts does not parse as an IP address, and when the end address is below the
start address as 32-bit big-endian integers. -/
theorem ParseIPRange_rejects (w : Externals) (seg : String)
    (hc : strings.Contains seg '-' = true)
    (h : (strings.Split seg '-').length ≠ 2 ∨
      (∃ p0 p1, strings.Split seg '-' = [p0, p1] ∧
        (net.ParseIP w.parseIPv6 (strings.TrimSpace p0) = none ∨
         net.ParseIP w.parseIPv6 (strings.TrimSpace p1) = none)) ∨
      (∃ p0 p1 a b, strings.Split seg '-' = [p0, p1] ∧
        net.ParseIP w.parseIPv6 (strings.TrimSpace p0) = some a ∧
        net.ParseIP w.parseIPv6 (strings.TrimSpace p1) = some b ∧
        ipToUint32 b < ipToUint32 a)) :
    ∃ e, ∀ fuel, ParseIPRange w fuel seg = some (.error e) := by
  unfold ParseIPRange
  simp only [hc, Bool.not_true, Bool.false_eq_true, if_false]
  rcases h with hlen | ⟨p0, p1, hs, hp⟩ | ⟨p0, p1, a, b, hs, ha, hb, hlt⟩
  · rcases hs : strings.Split seg '-' with _ | ⟨x, _ | ⟨y, _ | ⟨z, zs⟩⟩⟩
    · exact ⟨_, fun _ => rfl⟩
    · exact ⟨_, fun _ => rfl⟩
    · rw [hs] at hlen
      exact absurd rfl hlen
    · exact ⟨_, fun _ => rfl⟩
  · rw [hs]
    rcases hp with hp | hp
    · refine ⟨"无效的IP地址", fun _ => ?_⟩
      simp only [hp]
    · refine ⟨"无效的IP地址", fun _ => ?_⟩
      cases h0 : net.ParseIP w.parseIPv6 (strings.TrimSpace p0) <;> simp only [hp, h0]
  · rw [hs]
    refine ⟨"IP范围无效", fun _ => ?_⟩
    simp only [ha, hb, if_pos hlt]

theorem ParseIPRange_rejects_witness :
    ∃ e, ∀ fuel, ParseIPRange Externals.example fuel "10.0.0.5-10.0.0.1" = some (.error e) :=
  ParseIPRange_rejects Externals.example "10.0.0.5-10.0.0.1" (by decide)
    (Or.inr (Or.inr ⟨"10.0.0.5", "10.0.0.1", net.IPv4 10 0 0 5, net.IPv4 10 0 0 1,
      by decide, by decide, by decide, by decide⟩))

/-! ## The raw probe -/

theorem ScanPort.findInPorts_eq (port : Int) (ps : List nmap.Port) :
    ScanPort.findInPorts port ps =
      (ps.find? (fun p => decide ((p.ID : Int) = port))).map nmap.Port.State := by
  induction ps with
  | nil => rfl
  | cons p ps ih =>
    by_cases h : (p.ID : Int) = port
    · simp [ScanPort.findInPorts, h]
    · simp [ScanPort.findInPorts, h, ih]

theorem ScanPort.findInHosts_eq (port : Int) (hosts : List nmap.Host) :
    ScanPort.findInHosts port hosts =
      (((hosts.map nmap.Host.Ports).flatten).find?
        (fun p => decide ((p.ID : Int) = port))).map nmap.Port.State := by
  induction hosts with
  | nil => rfl
  | cons host hosts ih =>
    rw [ScanPort.findInHosts, ScanPort.findInPorts_eq, ih]
    simp only [List.map_cons, List.flatten_cons, List.find?_append]
    cases List.find? (fun p => decide ((p.ID : Int) = port)) host.Ports <;> rfl

/-- The result of `ScanPort` carries the address and port asked for, and the state the
specification gives for the outcome of the backend. -/
theorem ScanPort_result (w : Externals) (timeout : Int) (ip : String) (port : Int) :
    (ScanPort w timeout ip port).1 =
      ⟨ip, port, Spec.rawProbeState (w.nmapRun ip port timeout) port⟩ := by
  unfold ScanPort Spec.rawProbeState
  simp only []
  cases h1 : (w.nmapRun ip port timeout).newScannerErr with
  | some err => rfl
  | none =>
    cases h2 : (w.nmapRun ip port timeout).runErr with
    | some err => rfl
    | none =>
      simp only []
      rcases h3 : (w.nmapRun ip port timeout).warnings with _ | ⟨_ | ⟨wn, wns⟩⟩
      · simp only [Option.getD_none, ne_eq, not_true_eq_false, if_false]
        rcases h4 : (w.nmapRun ip port timeout).hosts with _ | ⟨host, hosts⟩
        · simp
        · simp only [List.length_cons, Nat.add_one_ne_zero, if_false, reduceCtorEq]
          rw [ScanPort.findInHosts_eq]
          cases List.find? (fun p => decide ((p.ID : Int) = port))
            ((List.map nmap.Host.Ports (host :: hosts)).flatten) <;> rfl
      · simp only [Option.getD_some, ne_eq, not_true_eq_false, if_false]
        rcases h4 : (w.nmapRun ip port timeout).hosts with _ | ⟨host, hosts⟩
        · simp
        · simp only [List.length_cons, Nat.add_one_ne_zero, if_false, reduceCtorEq]
          rw [ScanPort.findInHosts_eq]
          cases List.find? (fun p => decide ((p.ID : Int) = port))
            ((List.map nmap.Host.Ports (host :: hosts)).flatten) <;> rfl
      · simp

/-- C9: for every outcome of the backend, `ScanPort` returns a result with the address
and port asked for whose state is the error text if the backend returned an error, else
the warnings joined with `; ` if there are warnings, else `closed` if no host is
reported, else the state of the first port record (hosts in order, ports in order) whose
id is the port asked for, else `closed`. -/
theorem ScanPort_maps_backend_outcome (w : Externals) (timeout : Int) (ip : String)
    (port : Int) :
    (ScanPort w timeout ip port).1.IP = ip ∧
    (ScanPort w timeout ip port).1.Port = port ∧
    (ScanPort w timeout ip port).1.State =
      Spec.rawProbeState (w.nmapRun ip port timeout) port := by
  rw [ScanPort_result]
  exact ⟨rfl, rfl, rfl⟩

theorem ScanPort_effects (w : Externals) (timeout : Int) (ip : String) (port : Int) :
    (ScanPort w timeout ip port).2 =
      if (w.nmapRun ip port timeout).newScannerErr = none
      then [Effect.nmapNewScanner ip port, Effect.nmapRun ip port]
      else [Effect.nmapNewScanner ip port] := by
  unfold ScanPort
  simp only []
  cases h1 : (w.nmapRun ip port timeout).newScannerErr with
  | some err => simp
  | none =>
    simp only [if_true]
    split
    · rfl
    · split
      · rfl
      · split
        · rfl
        · split <;> rfl

/-- C10 as stated fails: in an unprivileged Linux process `checkPermissions` returns its
error, yet `ScanPort` creates and runs the nmap scanner and reports the state mapped from
the outcome of nmap, not the permission error. -/
theorem ScanPort_unprivileged_counterexample :
    ¬ (∀ (w : Externals) (timeout : Int) (ip : String) (port : Int) (err : String),
        checkPermissions w = some err →
          (ScanPort w timeout ip port).2 = [] ∧ (ScanPort w timeout ip port).1.State = err) ∧
    checkPermissions Externals.example =
      some "需要 root 权限才能进行 SYN 扫描，请使用 sudo 运行程序" ∧
    ScanPort Externals.example 1000000000 "10.0.0.1" 80 =
      (⟨"10.0.0.1", 80, "closed"⟩,
        [Effect.nmapNewScanner "10.0.0.1" 80, Effect.nmapRun "10.0.0.1" 80]) := by
  refine ⟨?_, by decide, by decide⟩
  intro h
  have h1 := (h Externals.example 1000000000 "10.0.0.1" 80
    "需要 root 权限才能进行 SYN 扫描，请使用 sudo 运行程序" (by decide)).1
  revert h1
  decide

/-- C10, as the code has it: `checkPermissions` fails exactly when the system is not
Windows and the effective user id is not 0, and `CheckPermission` returns what it
returns; `ScanPort` makes no permission check: its result and its calls are the same
whatever the system and the user id, it always calls the backend, and its state is the
one the outcome of the backend is mapped to. -/
theorem ScanPort_makes_no_permission_check (w : Externals) (timeout : Int) (ip : String)
    (port : Int) :
    ((∃ err, checkPermissions w = some err) ↔ (w.GOOS ≠ "windows" ∧ w.euid ≠ 0)) ∧
    CheckPermission w = checkPermissions w ∧
    (∀ (goos : String) (euid : Int),
      ScanPort { w with GOOS := goos, euid := euid } timeout ip port =
        ScanPort w timeout ip port) ∧
    Effect.nmapNewScanner ip port ∈ (ScanPort w timeout ip port).2 ∧
    ((w.nmapRun ip port timeout).newScannerErr = none →
      Effect.nmapRun ip port ∈ (ScanPort w timeout ip port).2) ∧
    (ScanPort w timeout ip port).1.State =
      Spec.rawProbeState (w.nmapRun ip port timeout) port := by
  refine ⟨?_, rfl, fun _ _ => rfl, ?_, ?_, ?_⟩
  · unfold checkPermissions
    by_cases hg : w.GOOS ≠ "windows"
    · by_cases hu : w.euid ≠ 0
      · simp [hg, hu]
      · simp [hg, hu]
    · simp [hg]
  · rw [ScanPort_effects]
    split <;> simp
  · intro h
    rw [ScanPort_effects, if_pos h]
    simp
  · rw [ScanPort_result]

/-! ## The worker pool of `ScanPorts` -/

theorem List.get?_decompose {α : Type} (l : List α) : ∀ (i : Nat) (a : α),
    l.get? i = some a → ∃ l1 l2, l = l1 ++ a :: l2 ∧ ∀ b, l.set i b = l1 ++ b :: l2 := by
  induction l with
  | nil => intro i a h; cases h
  | cons x xs ih =>
    intro i a h
    cases i with
    | zero =>
      simp only [List.get?_cons_zero, Option.some.injEq] at h
      subst h
      exact ⟨[], xs, rfl, fun _ => rfl⟩
    | succ j =>
      simp only [List.get?_cons_succ] at h
      obtain ⟨l1, l2, hl, hset⟩ := ih j a h
      refine ⟨x :: l1, l2, by simp [hl], fun b => ?_⟩
      simp [List.set_cons_succ, hset b]

theorem Scan.probe_task (c : Scan) (t : ScanTask) : (c.probe t).1.task = t := by
  unfold Scan.probe
  split
  · rw [ScanPort_result]; rfl
  · unfold ScanPortTCP
    split <;> rfl

/-- Every step of `ScanPorts` lowers the measure of the state. -/
theorem Step.measure_lt (c : Scan) (s s1 : Pool) (h : Step c s s1) :
    s1.measure < s.measure := by
  cases h with
  | sendError r h => simp [Pool.measure, h]
  | mainReturn h hw => simp [Pool.measure, h]
  | push t ts hc h hroom => simp [Pool.measure, h, hc]; omega
  | dispatchCancel t ts hc h hd => simp [Pool.measure, hc]
  | dispatchEnd hc h => simp [Pool.measure, hc]
  | take i t q hi h =>
    obtain ⟨l1, l2, hl, hset⟩ := List.get?_decompose _ _ _ hi
    simp only [Pool.measure, hset]
    simp only [h, hl, List.map_append, List.map_cons, List.sum_append,
      List.sum_cons, Worker.weight, List.length_cons]
    omega
  | workerEnd i hi h hc =>
    obtain ⟨l1, l2, hl, hset⟩ := List.get?_decompose _ _ _ hi
    simp only [Pool.measure, hset]
    simp only [hl, List.map_append, List.map_cons, List.sum_append,
      List.sum_cons, Worker.weight]
    omega
  | deliver i r hi hopen =>
    obtain ⟨l1, l2, hl, hset⟩ := List.get?_decompose _ _ _ hi
    simp only [Pool.measure, hset]
    simp only [hl, List.map_append, List.map_cons, List.sum_append,
      List.sum_cons, Worker.weight]
    omega
  | workerCancel i r hi hd =>
    obtain ⟨l1, l2, hl, hset⟩ := List.get?_decompose _ _ _ hi
    simp only [Pool.measure, hset]
    simp only [hl, List.map_append, List.map_cons, List.sum_append,
      List.sum_cons, Worker.weight]
    omega

theorem List.perm_move_middle {α : Type} (a h1 h2 q : List α) (x : α) :
    List.Perm (a ++ (h1 ++ h2) ++ x :: q) (a ++ (h1 ++ x :: h2) ++ q) := by
  rw [← Multiset.coe_eq_coe]
  simp only [← Multiset.coe_add, ← Multiset.cons_coe, ← Multiset.singleton_add]
  abel

theorem List.perm_move_front {α : Type} (a h1 h2 q : List α) (x : α) :
    List.Perm (a ++ (h1 ++ x :: h2) ++ q) ((a ++ [x]) ++ (h1 ++ h2) ++ q) := by
  rw [← Multiset.coe_eq_coe]
  simp only [← Multiset.coe_add, ← Multiset.cons_coe, ← Multiset.singleton_add,
    Multiset.coe_nil, add_zero]
  abel

theorem Worker.held_flatMap (l1 l2 : List Worker) (wk : Worker) :
    ((l1 ++ wk :: l2).flatMap Worker.held).map ScanResult.task =
      (l1.flatMap Worker.held).map ScanResult.task ++
        ((Worker.held wk).map ScanResult.task ++ (l2.flatMap Worker.held).map ScanResult.task) := by
  simp [List.flatMap_append]

/-- The invariant of the pool is kept by every step. -/
theorem PoolInv.step (c : Scan) (T : List ScanTask) (s s1 : Pool) (inv : PoolInv c T s)
    (h : Step c s s1) : PoolInv c T s1 := by
  cases h with
  | sendError r h => exact absurd h (inv.noError r)
  | mainReturn h hw =>
    exact ⟨inv.order, inv.conserve, fun r => by simp, by simp, by simp, fun _ => hw,
      inv.drained, inv.count, inv.finished, fun _ => Or.inr rfl⟩
  | push t ts hc h hroom =>
    refine ⟨?_, ?_, inv.noError, inv.closedIff, inv.doneIff, inv.joined, ?_, inv.count, ?_, ?_⟩
    · have := inv.order
      rw [h] at this
      simpa using this
    · have := inv.conserve.append_right [t]
      simpa [List.append_assoc] using this
    · intro ex
      have := (inv.drained ex).1
      rw [hc] at this
      cases this
    · intro hcl
      change s.taskChanClosed = true at hcl
      rw [hc] at hcl
      cases hcl
    · intro hcl
      change s.taskChanClosed = true at hcl
      rw [hc] at hcl
      cases hcl
  | dispatchCancel t ts hc h hd =>
    refine ⟨inv.order, inv.conserve, inv.noError, inv.closedIff, inv.doneIff, inv.joined,
      fun ex => ⟨rfl, (inv.drained ex).2⟩, inv.count, fun _ => ?_, fun _ => Or.inr hd⟩
    by_cases h0 : c.threads = 0
    · exact Or.inr h0
    · exfalso
      have hall := inv.joined (inv.doneIff.mp hd)
      have hlen := inv.count
      rcases hw : s.workers with _ | ⟨wk, wks⟩
      · rw [hw] at hlen
        exact h0 hlen.symm
      · have hmem : wk ∈ s.workers := by rw [hw]; exact List.mem_cons_self _ _
        have := (inv.drained ⟨wk, hmem, hall wk hmem⟩).1
        rw [hc] at this
        cases this
  | dispatchEnd hc h =>
    exact ⟨inv.order, inv.conserve, inv.noError, inv.closedIff, inv.doneIff, inv.joined,
      fun ex => ⟨rfl, (inv.drained ex).2⟩, inv.count, fun _ => Or.inl h, fun _ => Or.inl h⟩
  | take i t q hi h =>
    obtain ⟨l1, l2, hl, hset⟩ := List.get?_decompose _ _ _ hi
    have hmem : Worker.idle ∈ s.workers := by rw [hl]; simp
    refine ⟨inv.order, ?_, inv.noError, inv.closedIff, inv.doneIff, ?_, ?_, ?_, inv.finished,
      inv.uncancelled⟩
    · have hold := inv.conserve
      rw [h, hl, Worker.held_flatMap] at hold
      refine hold.trans ?_
      simp only [hset, Worker.held_flatMap, Worker.held, List.map_nil, List.nil_append,
        List.map_cons, Scan.probe_task]
      exact List.perm_move_middle _ _ _ _ _
    · intro hm
      have := inv.joined hm _ hmem
      cases this
    · rintro ⟨wk, hwk, rfl⟩
      exfalso
      simp only [hset, List.mem_append, List.mem_cons, reduceCtorEq, false_or] at hwk
      have hin : Worker.exited ∈ s.workers := by
        rw [hl]
        simp only [List.mem_append, List.mem_cons, reduceCtorEq, false_or]
        exact hwk
      have := (inv.drained ⟨_, hin, rfl⟩).2
      rw [h] at this
      cases this
    · simp only [List.length_set]
      exact inv.count
  | workerEnd i hi h hc =>
    obtain ⟨l1, l2, hl, hset⟩ := List.get?_decompose _ _ _ hi
    have hmem : Worker.idle ∈ s.workers := by rw [hl]; simp
    refine ⟨inv.order, ?_, inv.noError, inv.closedIff, inv.doneIff, ?_, fun _ => ⟨hc, h⟩, ?_,
      inv.finished, inv.uncancelled⟩
    · have hold := inv.conserve
      rw [hl, Worker.held_flatMap] at hold
      refine hold.trans ?_
      simp only [hset, Worker.held_flatMap, Worker.held, List.map_nil, List.nil_append]
      exact List.Perm.refl _
    · intro hm
      have := inv.joined hm _ hmem
      cases this
    · simp only [List.length_set]
      exact inv.count
  | deliver i r hi hopen =>
    obtain ⟨l1, l2, hl, hset⟩ := List.get?_decompose _ _ _ hi
    have hmem : Worker.sending r ∈ s.workers := by rw [hl]; simp
    refine ⟨inv.order, ?_, inv.noError, inv.closedIff, inv.doneIff, ?_, ?_, ?_, inv.finished,
      inv.uncancelled⟩
    · have hold := inv.conserve
      rw [hl, Worker.held_flatMap] at hold
      refine hold.trans ?_
      simp only [hset, Worker.held_flatMap, Worker.held, List.map_nil, List.nil_append,
        List.map_cons, List.map_append]
      exact List.perm_move_front _ _ _ _ _
    · intro hm
      have := inv.joined hm _ hmem
      cases this
    · rintro ⟨wk, hwk, rfl⟩
      simp only [hset, List.mem_append, List.mem_cons, reduceCtorEq, false_or] at hwk
      have hin : Worker.exited ∈ s.workers := by
        rw [hl]
        simp only [List.mem_append, List.mem_cons, reduceCtorEq, false_or]
        exact hwk
      exact inv.drained ⟨_, hin, rfl⟩
    · simp only [List.length_set]
      exact inv.count
  | workerCancel i r hi hd =>
    obtain ⟨l1, l2, hl, hset⟩ := List.get?_decompose _ _ _ hi
    have hmem : Worker.sending r ∈ s.workers := by rw [hl]; simp
    have := inv.joined (inv.doneIff.mp hd) _ hmem
    cases this

theorem dispatch.ports_eq (ip : String) (portList : List Int) : ∀ (pushed : List ScanTask),
    dispatch.ports (fun _ => false) ip portList pushed =
      (pushed ++ portList.map (fun port => (⟨ip, port⟩ : ScanTask)), false) := by
  induction portList with
  | nil => intro pushed; simp [dispatch.ports]
  | cons port rest ih =>
    intro pushed
    rw [dispatch.ports]
    simp [ih]

theorem dispatch.ips_eq (portList : List Int) (allIPs : List String) :
    ∀ (pushed : List ScanTask),
    dispatch.ips (fun _ => false) portList allIPs pushed =
      (pushed ++ allIPs.flatMap
        (fun ip => portList.map (fun port => (⟨ip, port⟩ : ScanTask))), false) := by
  induction allIPs with
  | nil => intro pushed; simp [dispatch.ips]
  | cons ip rest ih =>
    intro pushed
    rw [dispatch.ips, dispatch.ports_eq]
    simp [ih]

/-- Without cancellation the dispatcher pushes, for each address in order, one task for
each port in order. -/
theorem dispatch_eq (allIPs : List String) (portList : List Int) :
    dispatch (fun _ => false) allIPs portList =
      allIPs.flatMap (fun ip => portList.map (fun port => (⟨ip, port⟩ : ScanTask))) := by
  simp [dispatch, dispatch.ips_eq]

theorem dispatch_length (allIPs : List String) (portList : List Int) :
    (dispatch (fun _ => false) allIPs portList).length = allIPs.length * portList.length := by
  rw [dispatch_eq]
  induction allIPs with
  | nil => simp
  | cons ip rest ih =>
    simp only [List.flatMap_cons, List.length_append, List.length_map, ih, List.length_cons]
    ring

theorem dispatch_get (allIPs : List String) (portList : List Int) : ∀ (k : Nat),
    k < allIPs.length * portList.length →
    ∃ ip port, allIPs.get? (k / portList.length) = some ip ∧
      portList.get? (k % portList.length) = some port ∧
      (dispatch (fun _ => false) allIPs portList).get? k = some ⟨ip, port⟩ := by
  rw [dispatch_eq]
  induction allIPs with
  | nil => intro k hk; simp at hk
  | cons a rest ih =>
    intro k hk
    have hM : 0 < portList.length := by
      rcases Nat.eq_zero_or_pos portList.length with h0 | h0
      · rw [h0] at hk; simp at hk
      · exact h0
    simp only [List.flatMap_cons]
    by_cases hlt : k < portList.length
    · have hdiv : k / portList.length = 0 := Nat.div_eq_of_lt hlt
      have hmod : k % portList.length = k := Nat.mod_eq_of_lt hlt
      obtain ⟨port, hport⟩ : ∃ port, portList.get? k = some port := by
        cases hg : portList.get? k with
        | none => rw [List.get?_eq_none] at hg; omega
        | some port => exact ⟨port, rfl⟩
      refine ⟨a, port, by simp [hdiv], by rw [hmod]; exact hport, ?_⟩
      rw [List.get?_eq_getElem?, List.getElem?_append_left (by simpa using hlt)]
      rw [List.get?_eq_getElem?] at hport
      simp [hport]
    · have hge : portList.length ≤ k := by omega
      have hk2 : k - portList.length < rest.length * portList.length := by
        simp only [List.length_cons, Nat.add_mul, Nat.one_mul] at hk
        omega
      obtain ⟨ip, port, h1, h2, h3⟩ := ih (k - portList.length) hk2
      have hdiv : k / portList.length = (k - portList.length) / portList.length + 1 := by
        rw [← Nat.sub_add_cancel hge, Nat.add_div_right _ hM]
        simp
      have hmod : k % portList.length = (k - portList.length) % portList.length := by
        conv_lhs => rw [← Nat.sub_add_cancel hge]
        simp
      refine ⟨ip, port, ?_, ?_, ?_⟩
      · rw [hdiv]
        simpa using h1
      · rw [hmod]
        exact h2
      · rw [List.get?_eq_getElem?, List.getElem?_append_right (by simpa using hge)]
        rw [List.get?_eq_getElem?] at h3
        simpa using h3

/-- The controller counts the addresses that `ScanPorts` collects. -/
theorem App.countIPs_eq (w : Externals) (fuel : Nat) (frags : List String) :
    ∀ (acc allIPs : List String) (n : Int),
    ScanPorts.parseIPs w fuel frags acc = some (.ok allIPs) →
    App.countIPs w fuel frags n = some (n + allIPs.length - acc.length) := by
  induction frags with
  | nil =>
    intro acc allIPs n h
    simp only [ScanPorts.parseIPs, Option.some.injEq, Except.ok.injEq] at h
    subst h
    simp [App.countIPs]
  | cons frag rest ih =>
    intro acc allIPs n h
    rw [ScanPorts.parseIPs] at h
    rw [App.countIPs]
    cases hp : ParseIPRange w fuel (strings.TrimSpace frag) with
    | none => simp [hp] at h
    | some res =>
      cases res with
      | error e => simp [hp] at h
      | ok ips =>
        simp only [hp] at h ⊢
        rw [ih _ _ _ h]
        simp only [List.length_append, Nat.cast_add, Option.some.injEq]
        ring

/-- The addresses `ScanPorts` collects are the expansions of the comma fragments, in
input order. -/
theorem ScanPorts.parseIPs_ok (w : Externals) (fuel : Nat) (frags : List String) :
    ∀ (acc allIPs : List String),
    ScanPorts.parseIPs w fuel frags acc = some (.ok allIPs) →
    ∃ lists : List (List String),
      List.Forall₂ (fun frag ips =>
        ParseIPRange w fuel (strings.TrimSpace frag) = some (.ok ips)) frags lists ∧
      allIPs = acc ++ lists.flatten := by
  induction frags with
  | nil =>
    intro acc allIPs h
    simp only [ScanPorts.parseIPs, Option.some.injEq, Except.ok.injEq] at h
    exact ⟨[], List.Forall₂.nil, by simp [h]⟩
  | cons frag rest ih =>
    intro acc allIPs h
    rw [ScanPorts.parseIPs] at h
    cases hp : ParseIPRange w fuel (strings.TrimSpace frag) with
    | none => simp [hp] at h
    | some res =>
      cases res with
      | error e => simp [hp] at h
      | ok ips =>
        simp only [hp] at h
        obtain ⟨lists, hf, he⟩ := ih _ _ h
        exact ⟨ips :: lists, List.Forall₂.cons hp hf, by simp [he]⟩

/-- What the first part of `ScanPorts` has found when it starts the pool. -/
theorem ScanPorts.start_pool (w : Externals) (fuel : Nat) (ips ports : String) (threads : Int)
    (allIPs : List String) (portList : List Int)
    (h : ScanPorts.start w fuel ips ports threads = some (.pool allIPs portList)) :
    ScanPorts.parseIPs w fuel (strings.Split ips ',') [] = some (.ok allIPs) ∧
    ParsePortRange ports = .ok portList ∧ 0 ≤ threads ∧ threads ≤ w.maxPoolSize := by
  unfold ScanPorts.start at h
  cases hp : ScanPorts.parseIPs w fuel (strings.Split ips ',') [] with
  | none => simp [hp] at h
  | some res =>
    cases res with
    | error r => simp [hp] at h
    | ok l =>
      simp only [hp] at h
      cases hq : ParsePortRange ports with
      | error e => simp [hq] at h
      | ok pl =>
        simp only [hq] at h
        by_cases ht : threads < 0 ∨ threads > w.maxPoolSize
        · simp [ht] at h
        · simp only [if_neg ht, Option.some.injEq, ScanPorts.Start.pool.injEq] at h
          obtain ⟨rfl, rfl⟩ := h
          exact ⟨rfl, rfl, by omega, by omega⟩

/-- On an address segment below the last address `ParseIPRange` returns, given `2 ^ 32`
iterations, the expansion of the segment. -/
theorem ParseIPRange_expandable (w : Externals) (seg : String)
    (h : Spec.expandable w seg = true) (fuel : Nat) (hfuel : 2 ^ 32 ≤ fuel) :
    ParseIPRange w fuel seg = some (.ok (Spec.addressExpansion w seg)) := by
  unfold Spec.expandable at h
  unfold ParseIPRange Spec.addressExpansion
  by_cases hc : strings.Contains seg '-' = true
  · simp only [hc, if_true, Bool.not_true, Bool.false_eq_true, if_false] at h ⊢
    unfold Spec.addressRange at h ⊢
    rcases hs : strings.Split seg '-' with _ | ⟨x, _ | ⟨y, _ | ⟨z, zs⟩⟩⟩
    · simp [hs] at h
    · simp [hs] at h
    · simp only [hs] at h ⊢
      cases ha : net.ParseIP w.parseIPv6 (strings.TrimSpace x) with
      | none => simp [ha] at h
      | some a =>
        cases hb : net.ParseIP w.parseIPv6 (strings.TrimSpace y) with
        | none => simp [ha, hb] at h
        | some b =>
          simp only [ha, hb, decide_eq_true_eq] at h ⊢
          rw [if_neg (by omega), ipLoop_eq fuel _ _ [] h.2 (by omega) (by omega)]
          simp
    · simp [hs] at h
  · simp [hc]

theorem ScanPorts.parseIPs_expandable (w : Externals) (fuel : Nat) (hfuel : 2 ^ 32 ≤ fuel)
    (frags : List String) : ∀ (acc : List String),
    (∀ frag ∈ frags, Spec.expandable w (strings.TrimSpace frag) = true) →
    ScanPorts.parseIPs w fuel frags acc =
      some (.ok (acc ++ frags.flatMap
        (fun frag => Spec.addressExpansion w (strings.TrimSpace frag)))) := by
  induction frags with
  | nil => intro acc _; simp [ScanPorts.parseIPs]
  | cons frag rest ih =>
    intro acc h
    rw [ScanPorts.parseIPs,
      ParseIPRange_expandable w _ (h frag (List.mem_cons_self _ _)) fuel hfuel]
    simp only []
    rw [ih _ (fun f hf => h f (List.mem_cons_of_mem _ hf))]
    simp

/-- Given `2 ^ 32` iterations for each range, the first part of `ScanPorts` starts the
pool on the expansions of the address segments, in order, and on the ports parsed,
when every segment is below the last address, the ports parse and the thread count is
one the pool can be set up for. -/
theorem ScanPorts.start_expandable (w : Externals) (ips ports : String) (threads : Int)
    (portList : List Int)
    (hA : ∀ frag ∈ strings.Split ips ',', Spec.expandable w (strings.TrimSpace frag) = true)
    (hP : ParsePortRange ports = .ok portList)
    (ht : 0 ≤ threads) (hmax : threads ≤ w.maxPoolSize)
    (fuel : Nat) (hfuel : 2 ^ 32 ≤ fuel) :
    ScanPorts.start w fuel ips ports threads =
      some (.pool ((strings.Split ips ',').flatMap
        (fun frag => Spec.addressExpansion w (strings.TrimSpace frag))) portList) := by
  unfold ScanPorts.start
  rw [ScanPorts.parseIPs_expandable w fuel hfuel _ [] hA]
  simp only [hP, List.nil_append]
  rw [if_neg (by omega)]

/-- The invariant of the pool holds in the state in which the pool starts. -/
theorem PoolInv.init (c : Scan) (allIPs : List String) (portList : List Int) (s0 : Pool)
    (h : ScanPorts.init c (.pool allIPs portList) = some s0) :
    PoolInv c (dispatch (fun _ => false) allIPs portList) s0 := by
  simp only [ScanPorts.init, Option.some.injEq] at h
  subst h
  refine ⟨by simp, ?_, fun r => by simp, by simp, by simp, fun h => by simp at h, ?_, by simp,
    fun h => by simp at h, fun h => by simp at h⟩
  · have : (List.replicate c.threads Worker.idle).flatMap Worker.held = [] := by
      induction c.threads with
      | zero => rfl
      | succ n ih => simp [List.replicate_succ, Worker.held, ih]
    simp [this]
  · rintro ⟨wk, hwk, rfl⟩
    simp only [List.mem_replicate] at hwk
    exact absurd hwk.2 (by simp)

/-- The invariant of the pool holds in every state the call reaches. -/
theorem PoolInv.reachable (c : Scan) (T : List ScanTask) (s0 s : Pool) (inv : PoolInv c T s0)
    (h : Reachable c s0 s) : PoolInv c T s := by
  induction h with
  | refl => exact inv
  | tail _ hstep ih => exact PoolInv.step c T _ _ ih hstep

/-- When the stream is closed by a call with at least one worker, the results on it
answer the tasks of the dispatcher, one result for each task. -/
theorem PoolInv.closed_stream (c : Scan) (T : List ScanTask) (s : Pool) (inv : PoolInv c T s)
    (ht : 1 ≤ c.threads) (hcl : s.resultChanClosed = true) :
    List.Perm (s.stream.map ScanResult.task) T := by
  have hall := inv.joined (inv.closedIff.mp hcl)
  have hheld : s.workers.flatMap Worker.held = [] := by
    rw [List.flatMap_eq_nil_iff]
    intro wk hwk
    rw [hall wk hwk]
    rfl
  have hex : ∃ wk ∈ s.workers, wk = Worker.exited := by
    rcases hw : s.workers with _ | ⟨wk, wks⟩
    · have := inv.count
      rw [hw] at this
      simp only [List.length_nil] at this
      omega
    · exact ⟨wk, List.mem_cons_self _ _, hall wk (by rw [hw]; exact List.mem_cons_self _ _)⟩
  obtain ⟨hclosed, hchan⟩ := inv.drained hex
  have htodo : s.todo = [] := by
    rcases inv.finished hclosed with h | h
    · exact h
    · omega
  have hpushed : s.pushed = T := by
    have := inv.order
    rw [htodo, List.append_nil] at this
    exact this
  have := inv.conserve
  rw [hheld, hchan, hpushed] at this
  simpa using this.symm

/-- A call with at least one worker that has not closed the stream can take a step. -/
theorem PoolInv.can_step (c : Scan) (T : List ScanTask) (s : Pool) (inv : PoolInv c T s)
    (ht : 1 ≤ c.threads) (hopen : s.resultChanClosed = false) : ∃ s1, Step c s s1 := by
  have hmain : s.main = .waiting := by
    cases hm : s.main with
    | sendError r => exact absurd hm (inv.noError r)
    | waiting => rfl
    | returned =>
      have := inv.closedIff.mpr hm
      rw [hopen] at this
      cases this
  by_cases h1 : ∃ r, Worker.sending r ∈ s.workers
  · obtain ⟨r, hr⟩ := h1
    obtain ⟨i, hi⟩ := List.mem_iff_get?.mp hr
    exact ⟨_, Step.deliver s i r hi hopen⟩
  · by_cases h2 : Worker.idle ∈ s.workers
    · obtain ⟨i, hi⟩ := List.mem_iff_get?.mp h2
      rcases hq : s.taskChan with _ | ⟨t, q⟩
      · cases hc : s.taskChanClosed with
        | true => exact ⟨_, Step.workerEnd s i hi hq hc⟩
        | false =>
          rcases htodo : s.todo with _ | ⟨t, ts⟩
          · exact ⟨_, Step.dispatchEnd s hc htodo⟩
          · exact ⟨_, Step.push s t ts hc htodo (by rw [hq]; simpa using ht)⟩
      · exact ⟨_, Step.take s i t q hi hq⟩
    · refine ⟨_, Step.mainReturn s hmain ?_⟩
      intro wk hwk
      cases wk with
      | idle => exact absurd hwk h2
      | sending r => exact absurd ⟨r, hwk⟩ h1
      | exited => rfl

/-! ## The tasks dispatched and the results delivered -/

theorem App.totalTasks_pool (w : Externals) (fuel : Nat) (ips ports : String) (threads : Int)
    (allIPs : List String) (portList : List Int)
    (h : ScanPorts.start w fuel ips ports threads = some (.pool allIPs portList)) :
    App.totalTasks w fuel ips ports = some ((allIPs.length : Int) * (portList.length : Int)) := by
  obtain ⟨hA, hP, _⟩ := ScanPorts.start_pool w fuel ips ports threads allIPs portList h
  unfold App.totalTasks
  rw [App.countIPs_eq w fuel _ [] allIPs 0 hA, hP]
  simp

/-- C5: when both specifications parse, the tasks the dispatcher pushes when it is not
cancelled are the cartesian product of the expanded addresses `A` (the expansions of the
comma fragments in input order) and the expanded ports `P`, address-major and port-minor:
task `k` is `(A[k / |P|], P[k mod |P|])`, there are `|A| * |P|` of them, and this is the
value the controller gives `totalTasks` before the scan; in every state of the call the
tasks pushed so far are a prefix of this sequence, the whole of it once the dispatcher
has closed `taskChan` with the context not cancelled. -/
theorem dispatch_is_address_major_product (w : Externals) (fuel : Nat) (ips ports : String)
    (threads : Int) (useSYN : Bool) (timeoutMs : Int) (allIPs : List String)
    (portList : List Int)
    (h : ScanPorts.start w fuel ips ports threads = some (.pool allIPs portList)) :
    (∃ lists : List (List String),
      List.Forall₂ (fun frag l =>
        ParseIPRange w fuel (strings.TrimSpace frag) = some (.ok l)) (strings.Split ips ',') lists ∧
      allIPs = lists.flatten) ∧
    ParsePortRange ports = .ok portList ∧
    dispatch (fun _ => false) allIPs portList =
      allIPs.flatMap (fun ip => portList.map (fun port => (⟨ip, port⟩ : ScanTask))) ∧
    (dispatch (fun _ => false) allIPs portList).length = allIPs.length * portList.length ∧
    (∀ k, k < allIPs.length * portList.length →
      ∃ ip port, allIPs.get? (k / portList.length) = some ip ∧
        portList.get? (k % portList.length) = some port ∧
        (dispatch (fun _ => false) allIPs portList).get? k = some ⟨ip, port⟩) ∧
    App.totalTasks w fuel ips ports = some ((allIPs.length : Int) * (portList.length : Int)) ∧
    (∃ s0, ScanPorts.init ⟨w, useSYN, threads.toNat, timeoutMs⟩ (.pool allIPs portList) = some s0 ∧
      ∀ s, Reachable ⟨w, useSYN, threads.toNat, timeoutMs⟩ s0 s →
        s.pushed ++ s.todo = dispatch (fun _ => false) allIPs portList ∧
        (s.taskChanClosed = true → s.ctxDone = false →
          s.pushed = dispatch (fun _ => false) allIPs portList)) := by
  obtain ⟨hA, hP, _⟩ := ScanPorts.start_pool w fuel ips ports threads allIPs portList h
  obtain ⟨lists, hf, he⟩ := ScanPorts.parseIPs_ok w fuel _ _ _ hA
  refine ⟨⟨lists, hf, by simpa using he⟩, hP, dispatch_eq _ _, dispatch_length _ _,
    dispatch_get _ _, App.totalTasks_pool w fuel ips ports threads allIPs portList h,
    _, rfl, ?_⟩
  intro s hs
  have inv := PoolInv.reachable _ _ _ s (PoolInv.init _ allIPs portList _ rfl) hs
  refine ⟨inv.order, fun hc hd => ?_⟩
  rcases inv.uncancelled hc with h0 | h0
  · have := inv.order
    rw [h0, List.append_nil] at this
    exact this
  · rw [hd] at h0
    cases h0

theorem dispatch_is_address_major_product_witness :
    ScanPorts.start Externals.example 8 "10.0.0.1-10.0.0.2, 10.0.0.9" "22,80-81" 4 =
      some (.pool ["10.0.0.1", "10.0.0.2", "10.0.0.9"] [22, 80, 81]) ∧
    dispatch (fun _ => false) ["10.0.0.1", "10.0.0.2", "10.0.0.9"] [22, 80, 81] =
      ["10.0.0.1", "10.0.0.2", "10.0.0.9"].flatMap
        (fun ip => [22, 80, 81].map (fun port => (⟨ip, port⟩ : ScanTask))) ∧
    App.totalTasks Externals.example 8 "10.0.0.1-10.0.0.2, 10.0.0.9" "22,80-81" =
      some (((["10.0.0.1", "10.0.0.2", "10.0.0.9"] : List String).length : Int) *
        (([22, 80, 81] : List Int).length : Int)) :=
  ⟨by decide,
   (dispatch_is_address_major_product Externals.example 8 "10.0.0.1-10.0.0.2, 10.0.0.9"
      "22,80-81" 4 false 1000 _ _ (by decide)).2.2.1,
   (dispatch_is_address_major_product Externals.example 8 "10.0.0.1-10.0.0.2, 10.0.0.9"
      "22,80-81" 4 false 1000 _ _ (by decide)).2.2.2.2.2.1⟩

/-- C6, for the thread counts and address segments the code serves: when every address
segment is below the last address (a segment without a dash, or a range `a-b` with
`numeric(a) ≤ numeric(b)` and `b` not `255.255.255.255`), the segments expanding to `N`
addresses, the ports parse to `M` ports, and the thread count is at least 1 and one the
pool can be set up for, then the parsing returns and starts the pool, and a connect-probe
scan that is not cancelled closes the stream only after exactly `N * M` results, one for
each task (the pairs of address and port of the results are a permutation of the tasks);
until then some goroutine can take a step, every step lowers the measure of the state,
so the stream is closed after finitely many steps, and the controller then returns
`scan_complete`. -/
theorem ScanPorts_delivers_every_result (w : Externals) (ips ports : String)
    (threads timeoutMs : Int) (portList : List Int)
    (hA : ∀ frag ∈ strings.Split ips ',', Spec.expandable w (strings.TrimSpace frag) = true)
    (hP : ParsePortRange ports = .ok portList)
    (ht : 1 ≤ threads) (hmax : threads ≤ w.maxPoolSize) :
    (∀ fuel, 2 ^ 32 ≤ fuel →
      ScanPorts.start w fuel ips ports threads =
        some (.pool ((strings.Split ips ',').flatMap
          (fun frag => Spec.addressExpansion w (strings.TrimSpace frag))) portList)) ∧
    ∃ s0, ScanPorts.init ⟨w, false, threads.toNat, timeoutMs⟩
        (.pool ((strings.Split ips ',').flatMap
          (fun frag => Spec.addressExpansion w (strings.TrimSpace frag))) portList) = some s0 ∧
      ∀ s, Reachable ⟨w, false, threads.toNat, timeoutMs⟩ s0 s →
        (s.resultChanClosed = true →
          List.Perm (s.stream.map ScanResult.task)
            (((strings.Split ips ',').flatMap
              (fun frag => Spec.addressExpansion w (strings.TrimSpace frag))).flatMap
                (fun ip => portList.map (fun port => (⟨ip, port⟩ : ScanTask)))) ∧
          s.stream.length =
            ((strings.Split ips ',').flatMap
              (fun frag => Spec.addressExpansion w (strings.TrimSpace frag))).length *
              portList.length ∧
          (∀ fuel, 2 ^ 32 ≤ fuel →
            App.totalTasks w fuel ips ports = some (s.stream.length : Int)) ∧
          ∀ pick, App.waitOutcome false s.resultChanClosed pick = some "scan_complete") ∧
        (s.resultChanClosed = false →
          (∃ s1, Step ⟨w, false, threads.toNat, timeoutMs⟩ s s1) ∧
          ∀ pick, App.waitOutcome false s.resultChanClosed pick = none) ∧
        (∀ s1, Step ⟨w, false, threads.toNat, timeoutMs⟩ s s1 → s1.measure < s.measure) := by
  have hstart := ScanPorts.start_expandable w ips ports threads portList hA hP (by omega) hmax
  refine ⟨hstart, _, rfl, ?_⟩
  intro s hs
  have inv := PoolInv.reachable _ _ _ s (PoolInv.init _ _ portList _ rfl) hs
  have ht1 : 1 ≤ (⟨w, false, threads.toNat, timeoutMs⟩ : Scan).threads := by
    show 1 ≤ threads.toNat
    omega
  refine ⟨fun hcl => ?_, fun hopen => ?_, fun s1 hstep => Step.measure_lt _ _ _ hstep⟩
  · have hperm := PoolInv.closed_stream _ _ _ inv ht1 hcl
    have hlen := hperm.length_eq
    rw [List.length_map, dispatch_length] at hlen
    rw [dispatch_eq] at hperm
    refine ⟨hperm, hlen, fun fuel hfuel => ?_, fun pick => by rw [hcl]; rfl⟩
    rw [App.totalTasks_pool w fuel ips ports threads _ portList (hstart fuel hfuel), hlen]
    simp
  · exact ⟨PoolInv.can_step _ _ _ inv ht1 hopen, fun pick => by rw [hopen]; rfl⟩

theorem ScanPorts_delivers_every_result_witness :
    (∀ frag ∈ strings.Split "10.0.0.1-10.0.0.2, 10.0.0.9" ',',
      Spec.expandable Externals.example (strings.TrimSpace frag) = true) ∧
    ParsePortRange "80,443" = .ok [80, 443] ∧
    (strings.Split "10.0.0.1-10.0.0.2, 10.0.0.9" ',').flatMap
      (fun frag => Spec.addressExpansion Externals.example (strings.TrimSpace frag)) =
      ["10.0.0.1", "10.0.0.2", "10.0.0.9"] ∧
    ∀ fuel, 2 ^ 32 ≤ fuel →
      ScanPorts.start Externals.example fuel "10.0.0.1-10.0.0.2, 10.0.0.9" "80,443" 3 =
        some (.pool ((strings.Split "10.0.0.1-10.0.0.2, 10.0.0.9" ',').flatMap
          (fun frag => Spec.addressExpansion Externals.example (strings.TrimSpace frag)))
          [80, 443]) :=
  ⟨by decide, by decide, by decide,
   (ScanPorts_delivers_every_result Externals.example "10.0.0.1-10.0.0.2, 10.0.0.9" "80,443"
      3 500 [80, 443] (by decide) (by decide) (by decide) (by decide)).1⟩

/-- A call without workers delivers nothing. -/
theorem PoolInv.no_worker_stream (c : Scan) (T : List ScanTask) (s0 s : Pool)
    (inv : PoolInv c T s0) (h0 : c.threads = 0) (hs0 : s0.stream = [])
    (h : Reachable c s0 s) : s.stream = [] := by
  induction h with
  | refl => exact hs0
  | @tail b c1 hreach hstep ih =>
    have inv1 := PoolInv.reachable c T s0 _ inv hreach
    have hw : ∀ i wk, b.workers.get? i = some wk → False := by
      intro i wk hi
      have hlen := inv1.count
      rw [h0, List.length_eq_zero] at hlen
      rw [hlen] at hi
      cases hi
    cases hstep with
    | sendError r h => exact absurd h (inv1.noError r)
    | mainReturn h hw => exact ih
    | push t ts hc h hroom => exact ih
    | dispatchCancel t ts hc h hd => exact ih
    | dispatchEnd hc h => exact ih
    | take i t q hi h => exact ih
    | workerEnd i hi h hc => exact ih
    | deliver i r hi hopen => exact (hw i _ hi).elim
    | workerCancel i r hi hd => exact ih

/-- C6 as stated fails for the thread count 0: the scan of one address and one port has
one task, but no worker is started, `wg.Wait()` returns at once and the stream is closed
with no result on it; no run of this call delivers a result. The parsing returns the
one address and the one port for every number of iterations allowed. -/
theorem ScanPorts_zero_threads_counterexample :
    (∀ fuel, ScanPorts.start Externals.example fuel "10.0.0.1" "80" 0 =
      some (.pool ["10.0.0.1"] [80])) ∧
    ¬ (∀ s0, ScanPorts.init ⟨Externals.example, false, 0, 500⟩ (.pool ["10.0.0.1"] [80]) = some s0 →
        ∀ s, Reachable ⟨Externals.example, false, 0, 500⟩ s0 s → s.resultChanClosed = true →
          s.stream.length = (["10.0.0.1"] : List String).length * ([80] : List Int).length) ∧
    (∀ s0, ScanPorts.init ⟨Externals.example, false, 0, 500⟩ (.pool ["10.0.0.1"] [80]) = some s0 →
        ∀ s, Reachable ⟨Externals.example, false, 0, 500⟩ s0 s → s.stream = []) := by
  refine ⟨fun fuel => by rfl, ?_, ?_⟩
  · intro hall
    have hstep : Step ⟨Externals.example, false, 0, 500⟩
        ⟨.waiting, dispatch (fun _ => false) ["10.0.0.1"] [80], false, [],
          List.replicate 0 .idle, false, [], [], [], false⟩ _ :=
      Step.mainReturn _ rfl (by intro wk hwk; cases hwk)
    have := hall _ rfl _ (Relation.ReflTransGen.single hstep) rfl
    simp at this
  · intro s0 h0 s hs
    exact PoolInv.no_worker_stream _ _ s0 s (PoolInv.init _ _ _ _ h0) rfl
      (by simp only [ScanPorts.init, Option.some.injEq] at h0; rw [← h0]) hs

/-! ## Specifications that do not parse -/

/-- The address loop of `ScanPorts` ends with an error result exactly at the first
fragment on which `ParseIPRange` fails, every fragment before it having been expanded; the
result carries that fragment and the text of the error. -/
theorem ScanPorts.parseIPs_error (w : Externals) (fuel : Nat) (frags : List String) :
    ∀ (acc : List String) (r : ScanResult),
    ScanPorts.parseIPs w fuel frags acc = some (.error r) ↔
      ∃ pre frag post e, frags = pre ++ frag :: post ∧
        (∀ f ∈ pre, ∃ l, ParseIPRange w fuel (strings.TrimSpace f) = some (.ok l)) ∧
        ParseIPRange w fuel (strings.TrimSpace frag) = some (.error e) ∧
        r = ⟨frag, 0, e⟩ := by
  induction frags with
  | nil =>
    intro acc r
    simp [ScanPorts.parseIPs]
  | cons x rest ih =>
    intro acc r
    rw [ScanPorts.parseIPs]
    cases hp : ParseIPRange w fuel (strings.TrimSpace x) with
    | none =>
      simp only [reduceCtorEq, false_iff]
      rintro ⟨pre, frag, post, e, hfr, hpre, hfrag, _⟩
      cases pre with
      | nil =>
        simp only [List.nil_append, List.cons.injEq] at hfr
        rw [← hfr.1, hp] at hfrag
        cases hfrag
      | cons y ys =>
        simp only [List.cons_append, List.cons.injEq] at hfr
        obtain ⟨l, hl⟩ := hpre y (List.mem_cons_self _ _)
        rw [← hfr.1, hp] at hl
        cases hl
    | some res =>
      cases res with
      | error e0 =>
        simp only [Option.some.injEq, Except.error.injEq]
        constructor
        · intro h
          exact ⟨[], x, rest, e0, rfl, by simp, hp, h.symm⟩
        · rintro ⟨pre, frag, post, e, hfr, hpre, hfrag, hr⟩
          cases pre with
          | nil =>
            simp only [List.nil_append, List.cons.injEq] at hfr
            rw [← hfr.1, hp] at hfrag
            simp only [Option.some.injEq, Except.error.injEq] at hfrag
            rw [hr, ← hfr.1, hfrag]
          | cons y ys =>
            simp only [List.cons_append, List.cons.injEq] at hfr
            obtain ⟨l, hl⟩ := hpre y (List.mem_cons_self _ _)
            rw [← hfr.1, hp] at hl
            cases hl
      | ok ips =>
        simp only []
        rw [ih]
        constructor
        · rintro ⟨pre, frag, post, e, hfr, hpre, hfrag, hr⟩
          refine ⟨x :: pre, frag, post, e, by simp [hfr], ?_, hfrag, hr⟩
          intro f hf
          rcases List.mem_cons.mp hf with rfl | hin
          · exact ⟨ips, hp⟩
          · exact hpre f hin
        · rintro ⟨pre, frag, post, e, hfr, hpre, hfrag, hr⟩
          cases pre with
          | nil =>
            simp only [List.nil_append, List.cons.injEq] at hfr
            rw [← hfr.1, hp] at hfrag
            cases hfrag
          | cons y ys =>
            simp only [List.cons_append, List.cons.injEq] at hfr
            exact ⟨ys, frag, post, e, hfr.2, fun f hf => hpre f (List.mem_cons_of_mem _ hf),
              hfrag, hr⟩

/-- The runs of a call of `ScanPorts` on a specification that did not parse: the one
result is sent, the stream is closed, no task is pushed and no probe is run. -/
theorem ScanPorts.failed_run (c : Scan) (r : ScanResult) (s0 s : Pool)
    (h0 : ScanPorts.init c (.failed r) = some s0) (h : Reachable c s0 s) :
    s.pushed = [] ∧ s.effects = [] ∧
    (s.resultChanClosed = false → s.stream = [] ∧ ∃ s1, Step c s s1) ∧
    (s.resultChanClosed = true → s.stream = [r]) := by
  simp only [ScanPorts.init, Option.some.injEq] at h0
  subst h0
  have key : s = ⟨.sendError r, [], true, [], [], false, [], [], [], false⟩ ∨
      s = ⟨.returned, [], true, [], [], true, [], [], [r], true⟩ := by
    induction h with
    | refl => exact Or.inl rfl
    | @tail b c1 _ hstep ih =>
      rcases ih with rfl | rfl
      · cases hstep with
        | sendError r1 h =>
          simp only [MainPC.sendError.injEq] at h
          subst h
          exact Or.inr rfl
        | mainReturn h hw => cases h
        | push t ts hc h hroom => cases hc
        | dispatchCancel t ts hc h hd => cases hc
        | dispatchEnd hc h => cases hc
        | take i t q hi h => cases hi
        | workerEnd i hi h hc => cases hi
        | deliver i r1 hi hopen => cases hi
        | workerCancel i r1 hi hd => cases hi
      · cases hstep with
        | sendError r1 h => cases h
        | mainReturn h hw => cases h
        | push t ts hc h hroom => cases hc
        | dispatchCancel t ts hc h hd => cases hc
        | dispatchEnd hc h => cases hc
        | take i t q hi h => cases hi
        | workerEnd i hi h hc => cases hi
        | deliver i r1 hi hopen => cases hi
        | workerCancel i r1 hi hd => cases hi
  rcases key with rfl | rfl
  · exact ⟨rfl, rfl, fun _ => ⟨rfl, _, Step.sendError _ r rfl⟩, fun h => (by cases h)⟩
  · exact ⟨rfl, rfl, fun h => (by cases h), fun _ => rfl⟩

/-- What `ScanPorts` does on a specification that does not parse, every earlier call of
`ParseIPRange` having returned: for the first address fragment on which `ParseIPRange`
fails, or, when every fragment parses, for a port specification on which `ParsePortRange`
fails, it sends one result with the text of the error as state (the fragment as address
in the first case, the empty address and port 0 in the second), pushes no task, runs no
probe, and closes the stream. -/
theorem ScanPorts_parse_error_sends_one_result (w : Externals) (fuel : Nat)
    (ips ports : String) (threads : Int) (c : Scan) (r : ScanResult)
    (h : (∃ pre frag post e, strings.Split ips ',' = pre ++ frag :: post ∧
            (∀ f ∈ pre, ∃ l, ParseIPRange w fuel (strings.TrimSpace f) = some (.ok l)) ∧
            ParseIPRange w fuel (strings.TrimSpace frag) = some (.error e) ∧
            r = ⟨frag, 0, e⟩) ∨
         (∃ allIPs e, ScanPorts.parseIPs w fuel (strings.Split ips ',') [] = some (.ok allIPs) ∧
            ParsePortRange ports = .error e ∧ r = ⟨"", 0, e⟩)) :
    ScanPorts.start w fuel ips ports threads = some (.failed r) ∧
    ∃ s0, ScanPorts.init c (.failed r) = some s0 ∧
      ∀ s, Reachable c s0 s →
        s.pushed = [] ∧ s.effects = [] ∧
        (s.resultChanClosed = false → s.stream = [] ∧ ∃ s1, Step c s s1) ∧
        (s.resultChanClosed = true → s.stream = [r]) ∧
        (∀ s1, Step c s s1 → s1.measure < s.measure) := by
  refine ⟨?_, _, rfl, fun s hs => ?_⟩
  · unfold ScanPorts.start
    rcases h with h | ⟨allIPs, e, hA, hP, hr⟩
    · rw [(ScanPorts.parseIPs_error w fuel _ [] r).mpr h]
    · rw [hA]
      simp only [hP, hr]
  · obtain ⟨h1, h2, h3, h4⟩ := ScanPorts.failed_run c r _ s rfl hs
    exact ⟨h1, h2, h3, h4, fun s1 hstep => Step.measure_lt _ _ _ hstep⟩

theorem ScanPorts_parse_error_sends_one_result_witness :
    ScanPorts.start Externals.example 8 "10.0.0.1, 10.0.0.5-10.0.0.1" "80" 4 =
      some (.failed ⟨" 10.0.0.5-10.0.0.1", 0, "IP范围无效"⟩) :=
  (ScanPorts_parse_error_sends_one_result Externals.example 8 "10.0.0.1, 10.0.0.5-10.0.0.1"
    "80" 4 ⟨Externals.example, false, 4, 500⟩ ⟨" 10.0.0.5-10.0.0.1", 0, "IP范围无效"⟩
    (Or.inl ⟨["10.0.0.1"], " 10.0.0.5-10.0.0.1", [], "IP范围无效", by decide,
      fun f hf => ⟨["10.0.0.1"], by
        simp only [List.mem_singleton] at hf
        subst hf
        decide⟩,
      by decide, rfl⟩)).1

/-- C7 fails after a range that ends in `255.255.255.255`: the fragment `1-2-3` is one on
which `ParseIPRange` fails, but the call of `ParseIPRange` on the fragment before it never
returns, so `ScanPorts` never gets to send the error result, and neither does the
controller get past counting the addresses. -/
theorem ScanPorts_never_reports_after_max_range (w : Externals) (fuel : Nat) (threads : Int) :
    ParseIPRange w fuel "1-2-3" = some (.error "IP范围格式错误") ∧
    ScanPorts.start w fuel "255.255.255.255-255.255.255.255,1-2-3" "80" threads = none ∧
    App.totalTasks w fuel "255.255.255.255-255.255.255.255,1-2-3" "80" = none := by
  have hs : strings.Split "255.255.255.255-255.255.255.255,1-2-3" ',' =
      ["255.255.255.255-255.255.255.255", "1-2-3"] := by decide
  have ht : strings.TrimSpace "255.255.255.255-255.255.255.255" =
      "255.255.255.255-255.255.255.255" := by decide
  have hmax := (ParseIPRange_max_never_returns w fuel).1
  refine ⟨by rfl, ?_, ?_⟩
  · simp only [ScanPorts.start, hs, ScanPorts.parseIPs, ht, hmax]
  · simp only [App.totalTasks, hs, App.countIPs, ht, hmax]

/-! ## Rounding to binary64 -/

theorem F64.roundHalfEven_bounds (q : ℚ) :
    ⌊q⌋ ≤ F64.roundHalfEven q ∧ F64.roundHalfEven q ≤ ⌊q⌋ + 1 := by
  unfold F64.roundHalfEven
  split_ifs <;> omega

theorem F64.roundHalfEven_intCast (n : Int) : F64.roundHalfEven (n : ℚ) = n := by
  unfold F64.roundHalfEven
  simp

theorem F64.roundHalfEven_mono (q1 q2 : ℚ) (h : q1 ≤ q2) :
    F64.roundHalfEven q1 ≤ F64.roundHalfEven q2 := by
  have hf : ⌊q1⌋ ≤ ⌊q2⌋ := Int.floor_mono h
  rcases lt_or_eq_of_le hf with hlt | heq
  · have h1 := (F64.roundHalfEven_bounds q1).2
    have h2 := (F64.roundHalfEven_bounds q2).1
    omega
  · unfold F64.roundHalfEven
    rw [heq]
    split_ifs <;> first | omega | (exfalso; linarith)

theorem F64.roundHalfEven_le_add_one (q : ℚ) : (F64.roundHalfEven q : ℚ) ≤ q + 1 := by
  have h1 := (F64.roundHalfEven_bounds q).2
  have h2 : ((⌊q⌋ : Int) : ℚ) ≤ q := Int.floor_le q
  have h3 : (F64.roundHalfEven q : ℚ) ≤ ((⌊q⌋ + 1 : Int) : ℚ) := by exact_mod_cast h1
  push_cast at h3
  linarith

theorem F64.roundHalfEven_nonneg (q : ℚ) (h : 0 ≤ q) : 0 ≤ F64.roundHalfEven q := by
  have h1 := (F64.roundHalfEven_bounds q).1
  have h2 : 0 ≤ ⌊q⌋ := Int.floor_nonneg.mpr h
  omega

theorem F64.lastPlace_mono (q1 q2 : ℚ) (h0 : 0 < q1) (h : q1 ≤ q2) :
    F64.lastPlace q1 ≤ F64.lastPlace q2 := by
  unfold F64.lastPlace
  rw [abs_of_pos h0, abs_of_pos (lt_of_lt_of_le h0 h)]
  have := Int.log_mono_right (b := 2) h0 h
  exact max_le_max (by omega) (le_refl _)

/-- Below the last place there are fewer than `2 ^ 53` units. -/
theorem F64.div_lastPlace_lt (q : ℚ) (h0 : 0 < q) :
    q / 2 ^ F64.lastPlace q < 2 ^ (53 : Int) := by
  have hlt := Int.lt_zpow_succ_log_self (b := 2) (by norm_num) q
  have hle : Int.log 2 q + 1 ≤ F64.lastPlace q + 53 := by
    unfold F64.lastPlace
    rw [abs_of_pos h0]
    have := le_max_left (Int.log 2 q - 52) (-1074)
    omega
  have hpos : (0 : ℚ) < 2 ^ F64.lastPlace q := zpow_pos (by norm_num) _
  rw [div_lt_iff₀ hpos, ← zpow_add₀ (by norm_num : (2 : ℚ) ≠ 0)]
  calc q < ((2 : ℕ) : ℚ) ^ (Int.log 2 q + 1) := hlt
    _ = (2 : ℚ) ^ (Int.log 2 q + 1) := by norm_num
    _ ≤ (2 : ℚ) ^ (53 + F64.lastPlace q) := zpow_le_zpow_right₀ (by norm_num) (by omega)

/-- Above the subnormal range there are at least `2 ^ 52` units of the last place. -/
theorem F64.le_div_lastPlace (q : ℚ) (h0 : 0 < q) (hn : -1074 < F64.lastPlace q) :
    2 ^ (52 : Int) ≤ q / 2 ^ F64.lastPlace q := by
  have hle := Int.zpow_log_le_self (b := 2) (by norm_num) h0
  have he : F64.lastPlace q = Int.log 2 q - 52 := by
    unfold F64.lastPlace at hn ⊢
    rw [abs_of_pos h0] at hn ⊢
    rcases max_cases (Int.log 2 q - 52) (-1074) with ⟨h1, _⟩ | ⟨h1, _⟩
    · exact h1
    · rw [h1] at hn; omega
  have hpos : (0 : ℚ) < 2 ^ F64.lastPlace q := zpow_pos (by norm_num) _
  rw [le_div_iff₀ hpos, ← zpow_add₀ (by norm_num : (2 : ℚ) ≠ 0), he]
  calc (2 : ℚ) ^ (52 + (Int.log 2 q - 52)) = ((2 : ℕ) : ℚ) ^ Int.log 2 q := by
        rw [show (52 : Int) + (Int.log 2 q - 52) = Int.log 2 q by omega]; norm_num
    _ ≤ q := hle

/-- Rounding to binary64 is monotone on the positive rationals. -/
theorem F64.nearest_mono (q1 q2 : ℚ) (h0 : 0 < q1) (h : q1 ≤ q2) :
    F64.nearest q1 ≤ F64.nearest q2 := by
  have h02 : 0 < q2 := lt_of_lt_of_le h0 h
  have he := F64.lastPlace_mono q1 q2 h0 h
  have hp1 : (0 : ℚ) < 2 ^ F64.lastPlace q1 := zpow_pos (by norm_num) _
  have hp2 : (0 : ℚ) < 2 ^ F64.lastPlace q2 := zpow_pos (by norm_num) _
  unfold F64.nearest
  rcases lt_or_eq_of_le he with hlt | heq
  · have hn : -1074 < F64.lastPlace q2 := by
      have : -1074 ≤ F64.lastPlace q1 := le_max_right _ _
      omega
    have hx1 : F64.roundHalfEven (q1 / 2 ^ F64.lastPlace q1) ≤ 2 ^ 53 := by
      have := F64.roundHalfEven_mono _ _ (le_of_lt (F64.div_lastPlace_lt q1 h0))
      have hc : ((2 : ℚ) ^ (53 : Int)) = (((2 ^ 53 : Int)) : ℚ) := by norm_num
      rw [hc, F64.roundHalfEven_intCast] at this
      exact this
    have hx2 : 2 ^ 52 ≤ F64.roundHalfEven (q2 / 2 ^ F64.lastPlace q2) := by
      have := F64.roundHalfEven_mono _ _ (F64.le_div_lastPlace q2 h02 hn)
      have hc : ((2 : ℚ) ^ (52 : Int)) = (((2 ^ 52 : Int)) : ℚ) := by norm_num
      rw [hc, F64.roundHalfEven_intCast] at this
      exact this
    have hq1 : (F64.roundHalfEven (q1 / 2 ^ F64.lastPlace q1) : ℚ) ≤ 2 ^ (53 : Int) := by
      have : (F64.roundHalfEven (q1 / 2 ^ F64.lastPlace q1) : ℚ) ≤ ((2 ^ 53 : Int) : ℚ) := by
        exact_mod_cast hx1
      calc _ ≤ ((2 ^ 53 : Int) : ℚ) := this
        _ = 2 ^ (53 : Int) := by norm_num
    have hq2 : (2 : ℚ) ^ (52 : Int) ≤ (F64.roundHalfEven (q2 / 2 ^ F64.lastPlace q2) : ℚ) := by
      have : ((2 ^ 52 : Int) : ℚ) ≤ (F64.roundHalfEven (q2 / 2 ^ F64.lastPlace q2) : ℚ) := by
        exact_mod_cast hx2
      calc (2 : ℚ) ^ (52 : Int) = ((2 ^ 52 : Int) : ℚ) := by norm_num
        _ ≤ _ := this
    calc (F64.roundHalfEven (q1 / 2 ^ F64.lastPlace q1) : ℚ) * 2 ^ F64.lastPlace q1
        ≤ 2 ^ (53 : Int) * 2 ^ F64.lastPlace q1 := mul_le_mul_of_nonneg_right hq1 (le_of_lt hp1)
      _ = 2 ^ (53 + F64.lastPlace q1) := by rw [zpow_add₀ (by norm_num : (2 : ℚ) ≠ 0)]
      _ ≤ 2 ^ (52 + F64.lastPlace q2) := zpow_le_zpow_right₀ (by norm_num) (by omega)
      _ = 2 ^ (52 : Int) * 2 ^ F64.lastPlace q2 := by
        rw [zpow_add₀ (by norm_num : (2 : ℚ) ≠ 0)]
      _ ≤ (F64.roundHalfEven (q2 / 2 ^ F64.lastPlace q2) : ℚ) * 2 ^ F64.lastPlace q2 :=
        mul_le_mul_of_nonneg_right hq2 (le_of_lt hp2)
  · rw [← heq]
    apply mul_le_mul_of_nonneg_right _ (le_of_lt hp1)
    have : q1 / 2 ^ F64.lastPlace q1 ≤ q2 / 2 ^ F64.lastPlace q1 :=
      div_le_div_of_nonneg_right h (le_of_lt hp1)
    exact_mod_cast F64.roundHalfEven_mono _ _ this

theorem F64.nearest_zero : F64.nearest 0 = 0 := by
  unfold F64.nearest
  have : F64.roundHalfEven (0 / 2 ^ F64.lastPlace 0) = 0 := by
    rw [zero_div]
    exact_mod_cast F64.roundHalfEven_intCast 0
  rw [this]
  simp

theorem F64.nearest_nonneg (q : ℚ) (h : 0 ≤ q) : 0 ≤ F64.nearest q := by
  unfold F64.nearest
  have hp : (0 : ℚ) < 2 ^ F64.lastPlace q := zpow_pos (by norm_num) _
  have h1 : 0 ≤ F64.roundHalfEven (q / 2 ^ F64.lastPlace q) :=
    F64.roundHalfEven_nonneg _ (div_nonneg h (le_of_lt hp))
  have h2 : (0 : ℚ) ≤ (F64.roundHalfEven (q / 2 ^ F64.lastPlace q) : ℚ) := by exact_mod_cast h1
  positivity

/-- An integer below `2 ^ 53` is a binary64 value. -/
theorem F64.nearest_intCast (n : Int) (h0 : 0 ≤ n) (h : n < 2 ^ 53) :
    F64.nearest (n : ℚ) = n := by
  rcases eq_or_lt_of_le h0 with h00 | hpos
  · rw [← h00]
    exact_mod_cast F64.nearest_zero
  · have hq : (0 : ℚ) < n := by exact_mod_cast hpos
    have hlog : Int.log 2 (n : ℚ) < 53 := by
      rw [← Int.lt_zpow_iff_log_lt (by norm_num) hq]
      have : (n : ℚ) < ((2 ^ 53 : Int) : ℚ) := by exact_mod_cast h
      calc (n : ℚ) < ((2 ^ 53 : Int) : ℚ) := this
        _ = ((2 : ℕ) : ℚ) ^ (53 : Int) := by norm_num
    have he0 : F64.lastPlace (n : ℚ) ≤ 0 := by
      unfold F64.lastPlace
      rw [abs_of_pos hq]
      exact max_le (by omega) (by norm_num)
    obtain ⟨k, hk⟩ : ∃ k : Nat, F64.lastPlace (n : ℚ) = -(k : Int) :=
      ⟨(-F64.lastPlace (n : ℚ)).toNat, by omega⟩
    unfold F64.nearest
    rw [hk]
    have hdiv : (n : ℚ) / 2 ^ (-(k : Int)) = ((n * 2 ^ k : Int) : ℚ) := by
      rw [zpow_neg, zpow_natCast]
      push_cast
      field_simp
    rw [hdiv, F64.roundHalfEven_intCast, zpow_neg, zpow_natCast]
    push_cast
    field_simp

/-- Rounding to binary64 at most doubles a rational from 1 on. -/
theorem F64.nearest_le_two_mul (q : ℚ) (h1 : 1 ≤ q) : F64.nearest q ≤ 2 * q := by
  have h0 : 0 < q := lt_of_lt_of_le one_pos h1
  have hlog : 0 ≤ Int.log 2 q := by
    rw [← Int.zpow_le_iff_le_log (by norm_num) h0]
    simpa using h1
  have hn : -1074 < F64.lastPlace q := by
    unfold F64.lastPlace
    rw [abs_of_pos h0]
    have := le_max_left (Int.log 2 q - 52) (-1074)
    omega
  have hx := F64.le_div_lastPlace q h0 hn
  have hp : (0 : ℚ) < 2 ^ F64.lastPlace q := zpow_pos (by norm_num) _
  have hx1 : (1 : ℚ) ≤ q / 2 ^ F64.lastPlace q := by
    calc (1 : ℚ) ≤ 2 ^ (52 : Int) := by norm_num
      _ ≤ _ := hx
  have hr := F64.roundHalfEven_le_add_one (q / 2 ^ F64.lastPlace q)
  unfold F64.nearest
  calc (F64.roundHalfEven (q / 2 ^ F64.lastPlace q) : ℚ) * 2 ^ F64.lastPlace q
      ≤ (2 * (q / 2 ^ F64.lastPlace q)) * 2 ^ F64.lastPlace q :=
        mul_le_mul_of_nonneg_right (by linarith) (le_of_lt hp)
    _ = 2 * q := by field_simp

theorem F64.round_eq_fin (q : ℚ) (h0 : 0 ≤ q) (h : F64.nearest q < 2 ^ 1024) :
    F64.round q = F64.fin (F64.nearest q) := by
  have hn := F64.nearest_nonneg q h0
  unfold F64.round
  rw [if_neg (not_le.mpr h), if_neg]
  intro hle
  have : (0 : ℚ) < 2 ^ 1024 := by positivity
  linarith

theorem F64.ofInt_eq_fin (n : Int) (h0 : 0 ≤ n) (h : n < 2 ^ 63) :
    F64.ofInt n = F64.fin (F64.nearest n) ∧ F64.nearest (n : ℚ) ≤ 2 ^ 64 ∧
      (1 ≤ n → 1 ≤ F64.nearest (n : ℚ)) := by
  have hq0 : (0 : ℚ) ≤ n := by exact_mod_cast h0
  have hq : (n : ℚ) < 2 ^ 63 := by exact_mod_cast h
  have hb : F64.nearest (n : ℚ) ≤ 2 ^ 64 := by
    rcases lt_or_le (n : ℚ) 1 with hlt | hge
    · have hn0 : n = 0 := by
        have : n < 1 := by exact_mod_cast hlt
        omega
      rw [hn0]
      have := F64.nearest_zero
      simp only [Int.cast_zero]
      rw [this]
      positivity
    · have := F64.nearest_le_two_mul _ hge
      linarith
  refine ⟨?_, hb, fun h1 => ?_⟩
  · unfold F64.ofInt
    apply F64.round_eq_fin _ hq0
    calc F64.nearest (n : ℚ) ≤ 2 ^ 64 := hb
      _ < 2 ^ 1024 := by norm_num
  · have h1q : (1 : ℚ) ≤ n := by exact_mod_cast h1
    have := F64.nearest_mono 1 n one_pos h1q
    have h11 : F64.nearest (1 : ℚ) = 1 := by
      have := F64.nearest_intCast 1 (by norm_num) (by norm_num)
      simpa using this
    rw [h11] at this
    exact this

/-- The value of the percentage of line 100 for counts in the range of `int` and a
positive total: three roundings, of the two conversions and the product, then of the
quotient. -/
theorem App.progress_pos_total (f total : Int) (hf : 1 ≤ f) (hf2 : f < 2 ^ 63)
    (ht : 0 < total) (ht2 : total < 2 ^ 63) :
    App.progress f total =
      F64.fin (F64.nearest (F64.nearest (F64.nearest f * 100) / F64.nearest total)) := by
  obtain ⟨ef, bf, pf⟩ := F64.ofInt_eq_fin f (by omega) hf2
  obtain ⟨et, bt, pt⟩ := F64.ofInt_eq_fin total (by omega) ht2
  have pf1 := pf hf
  have pt1 := pt ht
  have hm1 : (1 : ℚ) ≤ F64.nearest f * 100 := by linarith
  have hm2 : F64.nearest (F64.nearest (f : ℚ) * 100) ≤ 2 ^ 72 := by
    have := F64.nearest_le_two_mul _ hm1
    have h64 : (2 : ℚ) ^ 64 * 200 ≤ 2 ^ 72 := by norm_num
    linarith
  have hm3 : (1 : ℚ) ≤ F64.nearest (F64.nearest (f : ℚ) * 100) := by
    have := F64.nearest_mono 1 _ one_pos hm1
    have h11 : F64.nearest (1 : ℚ) = 1 := by
      have := F64.nearest_intCast 1 (by norm_num) (by norm_num)
      simpa using this
    rw [h11] at this
    exact this
  have hmul : F64.mul (F64.fin (F64.nearest f)) (F64.fin 100) =
      F64.fin (F64.nearest (F64.nearest f * 100)) := by
    unfold F64.mul
    apply F64.round_eq_fin _ (by linarith)
    calc F64.nearest (F64.nearest (f : ℚ) * 100) ≤ 2 ^ 72 := hm2
      _ < 2 ^ 1024 := by norm_num
  have htne : F64.nearest (total : ℚ) ≠ 0 := by
    intro h
    rw [h] at pt1
    norm_num at pt1
  have htpos : (0 : ℚ) < F64.nearest (total : ℚ) := by linarith
  have hqpos : 0 < F64.nearest (F64.nearest (f : ℚ) * 100) / F64.nearest (total : ℚ) :=
    div_pos (by linarith) htpos
  have hqle : F64.nearest (F64.nearest (f : ℚ) * 100) / F64.nearest (total : ℚ) ≤ 2 ^ 72 := by
    rw [div_le_iff₀ htpos]
    calc F64.nearest (F64.nearest (f : ℚ) * 100) ≤ 2 ^ 72 := hm2
      _ = 2 ^ 72 * 1 := by ring
      _ ≤ 2 ^ 72 * F64.nearest (total : ℚ) :=
        mul_le_mul_of_nonneg_left pt1 (by positivity)
  unfold App.progress
  rw [ef, et, hmul]
  unfold F64.div
  simp only [htne, if_false]
  apply F64.round_eq_fin _ (le_of_lt hqpos)
  have h1 := F64.nearest_mono _ _ hqpos hqle
  have h2 := F64.nearest_le_two_mul ((2 : ℚ) ^ 72) (by norm_num)
  calc _ ≤ F64.nearest ((2 : ℚ) ^ 72) := h1
    _ ≤ 2 * 2 ^ 72 := h2
    _ < 2 ^ 1024 := by norm_num

/-- The percentage of a positive count out of zero is the positive infinity. -/
theorem App.progress_zero_total (f : Int) (hf : 1 ≤ f) (hf2 : f < 2 ^ 63) :
    App.progress f 0 = F64.posInf := by
  obtain ⟨ef, bf, pf⟩ := F64.ofInt_eq_fin f (by omega) hf2
  have pf1 := pf hf
  have hm1 : (1 : ℚ) ≤ F64.nearest f * 100 := by linarith
  have hm2 : F64.nearest (F64.nearest (f : ℚ) * 100) ≤ 2 ^ 72 := by
    have := F64.nearest_le_two_mul _ hm1
    have h64 : (2 : ℚ) ^ 64 * 200 ≤ 2 ^ 72 := by norm_num
    linarith
  have hm3 : (0 : ℚ) < F64.nearest (F64.nearest (f : ℚ) * 100) := by
    have := F64.nearest_mono 1 _ one_pos hm1
    have h11 : F64.nearest (1 : ℚ) = 1 := by
      have := F64.nearest_intCast 1 (by norm_num) (by norm_num)
      simpa using this
    rw [h11] at this
    linarith
  have hmul : F64.mul (F64.fin (F64.nearest f)) (F64.fin 100) =
      F64.fin (F64.nearest (F64.nearest f * 100)) := by
    unfold F64.mul
    apply F64.round_eq_fin _ (by linarith)
    calc F64.nearest (F64.nearest (f : ℚ) * 100) ≤ 2 ^ 72 := hm2
      _ < 2 ^ 1024 := by norm_num
  have e0 : F64.ofInt 0 = F64.fin 0 := by
    have := (F64.ofInt_eq_fin 0 (le_refl 0) (by norm_num)).1
    rw [this]
    simp only [Int.cast_zero]
    rw [F64.nearest_zero]
  unfold App.progress
  rw [ef, e0, hmul]
  unfold F64.div
  simp only [if_true, ne_of_gt hm3, if_false, hm3]

/-- The percentage grows with the count of finished tasks. -/
theorem App.progress_le (f g total : Int) (hf : 1 ≤ f) (hfg : f ≤ g) (hg : g < 2 ^ 63)
    (ht : 0 ≤ total) (ht2 : total < 2 ^ 63) :
    F64.le (App.progress f total) (App.progress g total) = true := by
  rcases eq_or_lt_of_le ht with h0 | hpos
  · rw [← h0, App.progress_zero_total f hf (by omega), App.progress_zero_total g (by omega) hg]
    rfl
  · rw [App.progress_pos_total f total hf (by omega) hpos ht2,
      App.progress_pos_total g total (by omega) hg hpos ht2]
    simp only [F64.le, decide_eq_true_eq]
    obtain ⟨_, _, pf⟩ := F64.ofInt_eq_fin f (by omega) (by omega)
    obtain ⟨_, _, pt⟩ := F64.ofInt_eq_fin total (by omega) ht2
    have pf1 := pf hf
    have pt1 := pt hpos
    have hfq : (0 : ℚ) < f := by exact_mod_cast (by omega : (0 : Int) < f)
    have hfg' : (f : ℚ) ≤ g := by exact_mod_cast hfg
    have h1 := F64.nearest_mono _ _ hfq hfg'
    have h2 : F64.nearest (F64.nearest (f : ℚ) * 100) ≤ F64.nearest (F64.nearest (g : ℚ) * 100) :=
      F64.nearest_mono _ _ (by linarith) (by linarith)
    have h3pos : (0 : ℚ) < F64.nearest (F64.nearest (f : ℚ) * 100) := by
      have hm1 : (1 : ℚ) ≤ F64.nearest f * 100 := by linarith
      have := F64.nearest_mono 1 _ one_pos hm1
      have h11 : F64.nearest (1 : ℚ) = 1 := by
        have := F64.nearest_intCast 1 (by norm_num) (by norm_num)
        simpa using this
      rw [h11] at this
      linarith
    have htpos : (0 : ℚ) < F64.nearest (total : ℚ) := by linarith
    exact F64.nearest_mono _ _ (div_pos h3pos htpos)
      (div_le_div_of_nonneg_right h2 (le_of_lt htpos))

/-- The percentage of counts below `2 ^ 53 / 100` whose quotient is a whole number is that
number, no rounding taking place. -/
theorem App.progress_exact (f total k : Int) (hf : 0 ≤ f) (hf2 : f * 100 < 2 ^ 53)
    (ht : 0 < total) (ht2 : total < 2 ^ 53) (hk : f * 100 = k * total) :
    App.progress f total = F64.fin k := by
  have hk0 : 0 ≤ k := by
    by_contra hneg
    have : k * total < 0 := mul_neg_of_neg_of_pos (by omega) ht
    omega
  have hk2 : k < 2 ^ 53 := by
    by_contra hge
    have : (2 : Int) ^ 53 * 1 ≤ k * total :=
      mul_le_mul (by omega) (by omega) (by norm_num) hk0
    omega
  have nf := F64.nearest_intCast f hf (by omega)
  have nt := F64.nearest_intCast total (by omega) ht2
  have nm := F64.nearest_intCast (f * 100) (by omega) hf2
  have nk := F64.nearest_intCast k hk0 hk2
  have ef : F64.ofInt f = F64.fin f := by
    rw [(F64.ofInt_eq_fin f hf (by omega)).1, nf]
  have et : F64.ofInt total = F64.fin total := by
    rw [(F64.ofInt_eq_fin total (by omega) (by omega)).1, nt]
  have htq : (total : ℚ) ≠ 0 := by
    have : (0 : ℚ) < total := by exact_mod_cast ht
    exact ne_of_gt this
  have hquot : ((f * 100 : Int) : ℚ) / (total : ℚ) = (k : ℚ) := by
    rw [hk]
    push_cast
    field_simp
  have h53 : ((2 : ℚ) ^ 53) < 2 ^ 1024 := by norm_num
  have hmul : F64.mul (F64.fin f) (F64.fin 100) = F64.fin ((f * 100 : Int) : ℚ) := by
    have hc : (f : ℚ) * 100 = ((f * 100 : Int) : ℚ) := by push_cast; ring
    show F64.round ((f : ℚ) * 100) = _
    rw [hc, F64.round_eq_fin _ (by exact_mod_cast (by omega : (0 : Int) ≤ f * 100)), nm]
    rw [nm]
    have : ((f * 100 : Int) : ℚ) < 2 ^ 53 := by exact_mod_cast hf2
    linarith
  unfold App.progress
  rw [ef, et, hmul]
  show (if (total : ℚ) = 0 then _ else F64.round (((f * 100 : Int) : ℚ) / (total : ℚ))) = _
  rw [if_neg htq, hquot, F64.round_eq_fin _ (by exact_mod_cast hk0), nk]
  rw [nk]
  have : (k : ℚ) < 2 ^ 53 := by exact_mod_cast hk2
  linarith


theorem F64.lastPlace_eq (q : ℚ) (e : Int) (h1 : (2 : ℚ) ^ (e + 52) ≤ q)
    (h2 : q < (2 : ℚ) ^ (e + 53)) (he : -1074 ≤ e) : F64.lastPlace q = e := by
  have h0 : 0 < q := lt_of_lt_of_le (zpow_pos (by norm_num) _) h1
  have hlog : Int.log 2 q = e + 52 := by
    have ha : e + 52 ≤ Int.log 2 q := by
      rw [← Int.zpow_le_iff_le_log (by norm_num) h0]
      simpa using h1
    have hb : Int.log 2 q < e + 53 := by
      rw [← Int.lt_zpow_iff_log_lt (by norm_num) h0]
      simpa using h2
    omega
  have hsub : Int.log 2 q - 52 = e := by omega
  unfold F64.lastPlace
  rw [abs_of_pos h0, hsub]
  exact max_eq_left he

theorem F64.roundHalfEven_of_lt_half (x : ℚ) (f : Int) (h1 : (f : ℚ) ≤ x)
    (h2 : x - f < 1 / 2) : F64.roundHalfEven x = f := by
  have hf : ⌊x⌋ = f := Int.floor_eq_iff.mpr ⟨h1, by linarith⟩
  unfold F64.roundHalfEven
  rw [hf, if_pos h2]

theorem F64.roundHalfEven_of_tie_even (x : ℚ) (f : Int) (h1 : x = (f : ℚ) + 1 / 2)
    (h2 : f % 2 = 0) : F64.roundHalfEven x = f := by
  have hf : ⌊x⌋ = f := Int.floor_eq_iff.mpr ⟨by linarith, by linarith⟩
  unfold F64.roundHalfEven
  rw [hf, if_neg (by linarith), if_neg (by linarith), if_pos h2]

/-- Beyond `2 ^ 53 / 100` finished tasks the product `finished * 100` is rounded, and the
percentage of all of the tasks need not be 100: for 360287970189641 tasks it is the
binary64 value next below 100. -/
theorem App.progress_rounded_example :
    App.progress 360287970189641 360287970189641 =
      F64.fin (7036874417766399 / 70368744177664) ∧
    App.progress 360287970189641 360287970189641 ≠ F64.fin 100 := by
  have hn : F64.nearest ((360287970189641 : Int) : ℚ) = ((360287970189641 : Int) : ℚ) :=
    F64.nearest_intCast 360287970189641 (by norm_num) (by norm_num)
  have hof : F64.ofInt 360287970189641 = F64.fin 360287970189641 := by
    rw [(F64.ofInt_eq_fin 360287970189641 (by norm_num) (by norm_num)).1, hn]
    norm_num
  have hmulv : F64.nearest ((360287970189641 : ℚ) * 100) = 36028797018964096 := by
    have he : F64.lastPlace ((360287970189641 : ℚ) * 100) = 3 :=
      F64.lastPlace_eq _ 3 (by norm_num) (by norm_num) (by norm_num)
    have hr : F64.roundHalfEven ((360287970189641 : ℚ) * 100 / 2 ^ (3 : Int)) =
        4503599627370512 :=
      F64.roundHalfEven_of_tie_even _ _ (by norm_num) (by norm_num)
    unfold F64.nearest
    rw [he, hr]
    norm_num
  have hdivv : F64.nearest ((36028797018964096 : ℚ) / 360287970189641) =
      7036874417766399 / 70368744177664 := by
    have he : F64.lastPlace ((36028797018964096 : ℚ) / 360287970189641) = -46 :=
      F64.lastPlace_eq _ (-46) (by norm_num) (by norm_num) (by norm_num)
    have hr : F64.roundHalfEven ((36028797018964096 : ℚ) / 360287970189641 / 2 ^ (-46 : Int)) =
        7036874417766399 :=
      F64.roundHalfEven_of_lt_half _ _ (by norm_num) (by norm_num)
    unfold F64.nearest
    rw [he, hr]
    norm_num
  have hmul : F64.mul (F64.fin 360287970189641) (F64.fin 100) = F64.fin 36028797018964096 := by
    show F64.round ((360287970189641 : ℚ) * 100) = _
    rw [F64.round_eq_fin _ (by norm_num) (by rw [hmulv]; norm_num), hmulv]
  have hval : App.progress 360287970189641 360287970189641 =
      F64.fin (7036874417766399 / 70368744177664) := by
    have hne : (360287970189641 : ℚ) ≠ 0 := by norm_num
    unfold App.progress
    rw [hof, hmul]
    unfold F64.div
    simp only [hne, if_false]
    rw [F64.round_eq_fin _ (by norm_num) (by rw [hdivv]; norm_num), hdivv]
  refine ⟨hval, ?_⟩
  rw [hval]
  intro h
  simp only [F64.fin.injEq] at h
  norm_num at h

/-! ## Progress -/

theorem App.progressEvents_append (es fs : List App.Event) :
    App.progressEvents (es ++ fs) = App.progressEvents es ++ App.progressEvents fs := by
  induction es with
  | nil => rfl
  | cons e es ih =>
    cases e with
    | scanResult r => simpa [App.progressEvents] using ih
    | scanProgress p => simpa [App.progressEvents] using ih

/-- Handling a result keeps the total, counts the result, and emits at most one
percentage, that of the new count. -/
theorem App.handleResult_spec (a : App.State) (r : ScanResult) (now : Int) :
    (App.handleResult a r now).totalTasks = a.totalTasks ∧
    (App.handleResult a r now).finishedTasks = a.finishedTasks + 1 ∧
    (App.progressEvents (App.handleResult a r now).events = App.progressEvents a.events ∨
     App.progressEvents (App.handleResult a r now).events =
       App.progressEvents a.events ++ [App.progress (a.finishedTasks + 1) a.totalTasks]) := by
  unfold App.handleResult
  simp only []
  split
  · refine ⟨rfl, rfl, Or.inr ?_⟩
    simp [App.progressEvents_append, App.progressEvents]
  · refine ⟨rfl, rfl, Or.inl ?_⟩
    simp [App.progressEvents_append, App.progressEvents]

/-- Over the results of a stream the controller keeps the total and counts every
result. -/
theorem App.consume_counts (clock : Nat → Int) (stream : List ScanResult) :
    ∀ (a : App.State),
    (App.consume clock a stream).totalTasks = a.totalTasks ∧
    (App.consume clock a stream).finishedTasks = a.finishedTasks + stream.length := by
  induction stream with
  | nil => intro a; simp [App.consume]
  | cons r rs ih =>
    intro a
    obtain ⟨e1, e2, _⟩ := App.handleResult_spec a r (clock a.finishedTasks.toNat)
    obtain ⟨n1, n2⟩ := ih (App.handleResult a r (clock a.finishedTasks.toNat))
    rw [App.consume, n1, n2, e1, e2]
    simp only [List.length_cons, Nat.cast_add, Nat.cast_one, true_and]
    ring

/-- Over the results of a stream, with counts in the range of `int`, the percentages the
controller emits are each that of a count reached, in non-decreasing order. -/
theorem App.consume_mono (clock : Nat → Int) (total : Int) (ht : 0 ≤ total)
    (ht2 : total < 2 ^ 63) (stream : List ScanResult) : ∀ (a : App.State),
    a.totalTasks = total → 0 ≤ a.finishedTasks →
    a.finishedTasks + stream.length < 2 ^ 63 →
    (∀ p ∈ App.progressEvents a.events,
      ∃ f, 1 ≤ f ∧ f ≤ a.finishedTasks ∧ p = App.progress f total) →
    List.Pairwise (fun p q => F64.le p q = true) (App.progressEvents a.events) →
    List.Pairwise (fun p q => F64.le p q = true)
      (App.progressEvents (App.consume clock a stream).events) := by
  induction stream with
  | nil =>
    intro a _ _ _ _ h4
    exact h4
  | cons r rs ih =>
    intro a h1 h2 hb h3 h4
    simp only [List.length_cons, Nat.cast_add, Nat.cast_one] at hb
    obtain ⟨e1, e2, e3⟩ := App.handleResult_spec a r (clock a.finishedTasks.toNat)
    rw [App.consume]
    refine ih (App.handleResult a r (clock a.finishedTasks.toNat))
      (by rw [e1, h1]) (by rw [e2]; omega) (by rw [e2]; omega) ?_ ?_
    · intro p hp
      rcases e3 with e3 | e3
      · rw [e3] at hp
        obtain ⟨f, hf1, hf2, hf3⟩ := h3 p hp
        exact ⟨f, hf1, by rw [e2]; omega, hf3⟩
      · rw [e3, List.mem_append, List.mem_singleton] at hp
        rcases hp with hp | hp
        · obtain ⟨f, hf1, hf2, hf3⟩ := h3 p hp
          exact ⟨f, hf1, by rw [e2]; omega, hf3⟩
        · exact ⟨a.finishedTasks + 1, by omega, by rw [e2], by rw [hp, h1]⟩
    · rcases e3 with e3 | e3
      · rw [e3]; exact h4
      · rw [e3, List.pairwise_append]
        refine ⟨h4, List.pairwise_singleton _ _, ?_⟩
        intro p hp q hq
        rw [List.mem_singleton] at hq
        obtain ⟨f, hf1, hf2, hf3⟩ := h3 p hp
        rw [hq, hf3, h1]
        exact App.progress_le f _ total hf1 (by omega) (by omega) ht ht2

theorem App.countIPs_nonneg (w : Externals) (fuel : Nat) (frags : List String) :
    ∀ (n m : Int), 0 ≤ n → App.countIPs w fuel frags n = some m → 0 ≤ m := by
  induction frags with
  | nil =>
    intro n m hn h
    simp only [App.countIPs, Option.some.injEq] at h
    omega
  | cons frag rest ih =>
    intro n m hn h
    rw [App.countIPs] at h
    cases hp : ParseIPRange w fuel (strings.TrimSpace frag) with
    | none => simp [hp] at h
    | some res =>
      cases res with
      | error e =>
        simp only [hp] at h
        exact ih n m hn h
      | ok ips =>
        simp only [hp] at h
        exact ih _ m (by omega) h

theorem App.totalTasks_nonneg (w : Externals) (fuel : Nat) (ips ports : String) (total : Int)
    (h : App.totalTasks w fuel ips ports = some total) : 0 ≤ total := by
  unfold App.totalTasks at h
  simp only [] at h
  cases hc : App.countIPs w fuel (strings.Split ips ',') 0 with
  | none => simp [hc] at h
  | some n =>
    simp only [hc, Option.some.injEq] at h
    have := App.countIPs_nonneg w fuel _ 0 n (le_refl 0) hc
    rw [← h]
    positivity

/-- C8, as the code has it, with `float64` rounded as IEEE 754 binary64 does: within one
scan, for a total and a number of results in the range of `int`, the percentages the
controller emits are in non-decreasing order, whatever the results and the times at which
they arrive, and the total the controller computes is never negative; and when every
address segment is below the last address, the ports parse, the thread count is at least
1 and one the pool can be set up for, and the number `N * M` of tasks is positive with
`N * M * 100` below `2 ^ 53`, then the controller sets the total to `N * M` and at the
close of the stream of a scan that is not cancelled the percentage of the finished and
total counts is 100. -/
theorem progress_nondecreasing_and_complete (w : Externals) (ips ports : String)
    (threads : Int) (useSYN : Bool) (timeoutMs : Int) (clock : Nat → Int) (now : Int)
    (total : Int) (stream : List ScanResult)
    (h0 : 0 ≤ total) (h1 : total < 2 ^ 63) (h2 : (stream.length : Int) < 2 ^ 63) :
    List.Pairwise (fun p q => F64.le p q = true)
      (App.progressEvents (App.consume clock (App.reset total now) stream).events) ∧
    (∀ fuel t, App.totalTasks w fuel ips ports = some t → 0 ≤ t) ∧
    (∀ (portList : List Int),
      (∀ frag ∈ strings.Split ips ',', Spec.expandable w (strings.TrimSpace frag) = true) →
      ParsePortRange ports = .ok portList →
      1 ≤ threads → threads ≤ w.maxPoolSize →
      0 < ((strings.Split ips ',').flatMap
          (fun frag => Spec.addressExpansion w (strings.TrimSpace frag))).length *
        portList.length →
      ((strings.Split ips ',').flatMap
          (fun frag => Spec.addressExpansion w (strings.TrimSpace frag))).length *
        portList.length * 100 < 2 ^ 53 →
      (∀ fuel, 2 ^ 32 ≤ fuel →
        App.totalTasks w fuel ips ports =
          some ((((strings.Split ips ',').flatMap
              (fun frag => Spec.addressExpansion w (strings.TrimSpace frag))).length *
            portList.length : Nat) : Int)) ∧
      ∃ s0, ScanPorts.init ⟨w, useSYN, threads.toNat, timeoutMs⟩
          (.pool ((strings.Split ips ',').flatMap
            (fun frag => Spec.addressExpansion w (strings.TrimSpace frag))) portList) =
            some s0 ∧
        ∀ s, Reachable ⟨w, useSYN, threads.toNat, timeoutMs⟩ s0 s →
          s.resultChanClosed = true →
          App.progress
            (App.consume clock (App.reset ((((strings.Split ips ',').flatMap
                (fun frag => Spec.addressExpansion w (strings.TrimSpace frag))).length *
              portList.length : Nat) : Int) now) s.stream).finishedTasks
            (App.consume clock (App.reset ((((strings.Split ips ',').flatMap
                (fun frag => Spec.addressExpansion w (strings.TrimSpace frag))).length *
              portList.length : Nat) : Int) now) s.stream).totalTasks = F64.fin 100) := by
  refine ⟨?_, fun fuel t ht => App.totalTasks_nonneg w fuel ips ports t ht, ?_⟩
  · exact App.consume_mono clock total h0 h1 stream (App.reset total now) rfl (le_refl 0)
      (by show (0 : Int) + stream.length < 2 ^ 63; omega) (by intro p hp; cases hp)
      List.Pairwise.nil
  · intro portList hA hP ht hmax hpos hsmall
    have hstart := ScanPorts.start_expandable w ips ports threads portList hA hP (by omega) hmax
    refine ⟨fun fuel hfuel => ?_, _, rfl, fun s hs hcl => ?_⟩
    · rw [App.totalTasks_pool w fuel ips ports threads _ portList (hstart fuel hfuel)]
      simp
    · have inv := PoolInv.reachable _ _ _ s (PoolInv.init _ _ portList _ rfl) hs
      have ht1 : 1 ≤ (⟨w, useSYN, threads.toNat, timeoutMs⟩ : Scan).threads := by
        show 1 ≤ threads.toNat
        omega
      have hlen := (PoolInv.closed_stream _ _ _ inv ht1 hcl).length_eq
      rw [List.length_map, dispatch_length] at hlen
      obtain ⟨e1, e2⟩ := App.consume_counts clock s.stream (App.reset ((((strings.Split ips ',').flatMap
        (fun frag => Spec.addressExpansion w (strings.TrimSpace frag))).length *
          portList.length : Nat) : Int) now)
      rw [e1, e2, hlen]
      have hfin : ∀ t : Int, (App.reset t now).finishedTasks = 0 := fun _ => rfl
      have htot : ∀ t : Int, (App.reset t now).totalTasks = t := fun _ => rfl
      rw [hfin, htot, zero_add]
      have hposZ : (0 : Int) < (((strings.Split ips ',').flatMap
          (fun frag => Spec.addressExpansion w (strings.TrimSpace frag))).length *
            portList.length : Nat) := by exact_mod_cast hpos
      have hsmallZ : ((((strings.Split ips ',').flatMap
          (fun frag => Spec.addressExpansion w (strings.TrimSpace frag))).length *
            portList.length : Nat) : Int) * 100 < 2 ^ 53 := by exact_mod_cast hsmall
      exact App.progress_exact _ _ 100 (by omega) hsmallZ hposZ (by omega) (by ring)

theorem progress_nondecreasing_and_complete_witness :
    List.Pairwise (fun p q => F64.le p q = true)
      (App.progressEvents (App.consume (fun k => 60000000 * (k : Int)) (App.reset 4 0)
        [⟨"10.0.0.1", 80, "closed"⟩, ⟨"10.0.0.2", 80, "closed"⟩,
          ⟨"10.0.0.1", 443, "closed"⟩]).events) :=
  (progress_nondecreasing_and_complete Externals.example "10.0.0.1-10.0.0.2" "80,443" 3
    false 500 (fun k => 60000000 * (k : Int)) 0 4
    [⟨"10.0.0.1", 80, "closed"⟩, ⟨"10.0.0.2", 80, "closed"⟩, ⟨"10.0.0.1", 443, "closed"⟩]
    (by decide) (by decide) (by decide)).1

/-- C8 as stated fails. With the thread count 0 the scan of one address and one port
closes the stream with no result, and the percentage of zero finished tasks out of one is
0. When the port specification does not parse, the controller sets `totalTasks` to 0, the
scan sends its one error result and closes the stream, and the percentage of one finished
task out of zero is the infinity of a division by zero. When a later address fragment
does not parse, two addresses and two ports have been counted and the one error result
leaves the percentage at 25. -/
theorem progress_at_close_counterexample :
    (∀ fuel, App.totalTasks Externals.example fuel "10.0.0.1" "80" = some 1) ∧
    (∀ fuel, ScanPorts.start Externals.example fuel "10.0.0.1" "80" 0 =
      some (.pool ["10.0.0.1"] [80])) ∧
    ¬ (∀ s0, ScanPorts.init ⟨Externals.example, false, 0, 500⟩ (.pool ["10.0.0.1"] [80]) =
          some s0 →
        ∀ s, Reachable ⟨Externals.example, false, 0, 500⟩ s0 s → s.resultChanClosed = true →
          App.progress (App.consume (fun _ => 0) (App.reset 1 0) s.stream).finishedTasks
            (App.consume (fun _ => 0) (App.reset 1 0) s.stream).totalTasks = F64.fin 100) ∧
    App.progress (App.consume (fun _ => 0) (App.reset 1 0) []).finishedTasks
        (App.consume (fun _ => 0) (App.reset 1 0) []).totalTasks = F64.fin 0 ∧
    (∀ fuel, App.totalTasks Externals.example fuel "10.0.0.1" "http" = some 0) ∧
    (∀ fuel, ScanPorts.start Externals.example fuel "10.0.0.1" "http" 4 =
      some (.failed ⟨"", 0, "无效的端口号"⟩)) ∧
    ¬ (∀ s0, ScanPorts.init ⟨Externals.example, false, 4, 500⟩
          (.failed ⟨"", 0, "无效的端口号"⟩) = some s0 →
        ∀ s, Reachable ⟨Externals.example, false, 4, 500⟩ s0 s → s.resultChanClosed = true →
          App.progress (App.consume (fun _ => 0) (App.reset 0 0) s.stream).finishedTasks
            (App.consume (fun _ => 0) (App.reset 0 0) s.stream).totalTasks = F64.fin 100) ∧
    App.progress
        (App.consume (fun _ => 0) (App.reset 0 0) [⟨"", 0, "无效的端口号"⟩]).finishedTasks
        (App.consume (fun _ => 0) (App.reset 0 0) [⟨"", 0, "无效的端口号"⟩]).totalTasks =
      F64.posInf ∧
    App.totalTasks Externals.example 8 "10.0.0.1-10.0.0.2,5-4-3" "80,81" = some 4 ∧
    ScanPorts.start Externals.example 8 "10.0.0.1-10.0.0.2,5-4-3" "80,81" 4 =
      some (.failed ⟨"5-4-3", 0, "IP范围格式错误"⟩) ∧
    App.progress
        (App.consume (fun _ => 0) (App.reset 4 0) [⟨"5-4-3", 0, "IP范围格式错误"⟩]).finishedTasks
        (App.consume (fun _ => 0) (App.reset 4 0) [⟨"5-4-3", 0, "IP范围格式错误"⟩]).totalTasks =
      F64.fin 25 := by
  have hfin : ∀ (total : Int) (r : ScanResult),
      (App.consume (fun _ => 0) (App.reset total 0) [r]).finishedTasks = 1 ∧
      (App.consume (fun _ => 0) (App.reset total 0) [r]).totalTasks = total := by
    intro total r
    obtain ⟨e1, e2, _⟩ := App.handleResult_spec (App.reset total 0) r 0
    exact ⟨e2, e1⟩
  have hzero : App.progress (App.consume (fun _ => 0) (App.reset 1 0) []).finishedTasks
      (App.consume (fun _ => 0) (App.reset 1 0) []).totalTasks = F64.fin 0 := by
    have := App.progress_exact 0 1 0 (le_refl 0) (by norm_num) (by norm_num) (by norm_num)
      (by norm_num)
    simpa [App.consume, App.reset] using this
  have hinf : App.progress
      (App.consume (fun _ => 0) (App.reset 0 0) [⟨"", 0, "无效的端口号"⟩]).finishedTasks
      (App.consume (fun _ => 0) (App.reset 0 0) [⟨"", 0, "无效的端口号"⟩]).totalTasks =
      F64.posInf := by
    rw [(hfin 0 _).1, (hfin 0 _).2]
    exact App.progress_zero_total 1 (le_refl 1) (by norm_num)
  refine ⟨fun fuel => by rfl, fun fuel => by rfl, ?_, hzero, fun fuel => by rfl,
    fun fuel => by rfl, ?_, hinf, by decide, by decide, ?_⟩
  · intro hall
    have hstep : Step ⟨Externals.example, false, 0, 500⟩
        ⟨.waiting, dispatch (fun _ => false) ["10.0.0.1"] [80], false, [],
          List.replicate 0 .idle, false, [], [], [], false⟩ _ :=
      Step.mainReturn _ rfl (by intro wk hwk; cases hwk)
    have h100 := hall _ rfl _ (Relation.ReflTransGen.single hstep) rfl
    rw [hzero] at h100
    simp only [F64.fin.injEq] at h100
    norm_num at h100
  · intro hall
    have hstep : Step ⟨Externals.example, false, 4, 500⟩
        ⟨.sendError ⟨"", 0, "无效的端口号"⟩, [], true, [], [], false, [], [], [], false⟩ _ :=
      Step.sendError _ _ rfl
    have h100 := hall _ rfl _ (Relation.ReflTransGen.single hstep) rfl
    simp only [List.nil_append] at h100
    rw [hinf] at h100
    cases h100
  · rw [(hfin 4 _).1, (hfin 4 _).2]
    exact_mod_cast App.progress_exact 1 4 25 (by norm_num) (by norm_num) (by norm_num)
      (by norm_num) (by norm_num)

